import Mathlib

/-!
A verification development for the VkHashDAG repository: shallow embeddings of
the hash-consed node pool, the paged stores, the color pool leaf allocator, the
recursive edit engine with its editors, and the VBR color octree, together with
theorems settling the documented properties.

Machine integers: all word values and indices in the sources fit comfortably in
their 32/64-bit types for the configurations in use (addresses and coordinates
are below 2^32, squared distances below 2^64), so they are embedded as `Nat`
(with `Int` for signed distance arithmetic); no wrap-around is reachable and
none is modelled.
-/

namespace VkHashDAG

/-! ## Hash-consed node pool (HashDAG-Implementation: `upsert_node`, `find_node`)

A node candidate is its sequence of words (`List Nat`).  A bucket stores the
sequence of nodes appended to it, in insertion order; the pair
(bucket index, slot index) models the word address of a stored node (addresses
in the source are dense word offsets, which identify a stored node exactly as
the (bucket, slot) pair does).  The source's two-phase scan (unlocked scan then
locked re-scan and append) collapses, in this sequential embedding of
"any sequence of upserts", to a single scan followed by an append. -/

structure PoolConfig where
  hash : List Nat → Nat
  levelBase : Nat → Nat
  bucketsAt : Nat → Nat

structure Pool where
  buckets : Nat → List (List Nat)

def emptyPool : Pool := ⟨fun _ => []⟩

def updBuckets (f : Nat → List (List Nat)) (i : Nat) (v : List (List Nat)) :
    Nat → List (List Nat) :=
  fun j => if j = i then v else f j

/-- `Word bucket_index = hash(node_content) % buckets_at_level;
    Word global_bucket = level_base_bucket + bucket_index;` -/
def calculate_bucket (cfg : PoolConfig) (level : Nat) (ws : List Nat) : Nat :=
  cfg.levelBase level + cfg.hash ws % cfg.bucketsAt level

/-- Scan the bucket's stored prefix for a node whose words match; return its
slot index on the first match (`find_node` / `find_node_in_page`). -/
def find_node : List (List Nat) → List Nat → Option Nat
  | [], _ => none
  | n :: rest, ws => if n = ws then some 0 else (find_node rest ws).map (· + 1)

/-- `upsert_node`: compute the bucket, scan for an existing structurally equal
node and return its address, otherwise append the candidate at the bucket tail
and return the fresh address. -/
def upsert_node (cfg : PoolConfig) (p : Pool) (level : Nat) (ws : List Nat) :
    (Nat × Nat) × Pool :=
  let b := calculate_bucket cfg level ws
  match find_node (p.buckets b) ws with
  | some i => ((b, i), p)
  | none => ((b, (p.buckets b).length), ⟨updBuckets p.buckets b (p.buckets b ++ [ws])⟩)

/-- A sequence of upserts, each given as (level, node words). -/
def upsertMany (cfg : PoolConfig) (p : Pool) (ops : List (Nat × List Nat)) : Pool :=
  ops.foldl (fun q op => (upsert_node cfg q op.1 op.2).2) p

/-! ## PagedStore (Memory-Management: `WritePage`, `ReadPage`)

`m_pages` is an array of owning pointers, null until the page's first write;
`WritePage` materializes the page on first write and copies in the data;
`ReadPage` returns the raw page pointer. `none` models the null pointer.
The source materializes pages with `make_unique_for_overwrite` (contents
indeterminate before the copy); the embedding materializes with zeros, which no
theorem below relies on. -/

structure PagedStore where
  wordsPerPage : Nat
  pages : Nat → Option (List Nat)

def emptyStore (w : Nat) : PagedStore := ⟨w, fun _ => none⟩

/-- Overwrite `data.length` words of `l` starting at `off`. -/
def overwrite (l : List Nat) (off : Nat) (data : List Nat) : List Nat :=
  l.take off ++ data ++ l.drop (off + data.length)

def updPages (f : Nat → Option (List Nat)) (i : Nat) (v : List Nat) :
    Nat → Option (List Nat) :=
  fun j => if j = i then some v else f j

/-- `WritePage`: allocate the page on first write, then copy the words at the
given offset. -/
def WritePage (s : PagedStore) (id off : Nat) (data : List Nat) : PagedStore :=
  let page := (s.pages id).getD (List.replicate s.wordsPerPage 0)
  ⟨s.wordsPerPage, updPages s.pages id (overwrite page off data)⟩

/-- `ReadPage`: `const uint32_t* page_data = m_pages[page_id].get(); ...
return page_data;` — the stored buffer, a null pointer (`none`) when the page
was never written. -/
def ReadPage (s : PagedStore) (id : Nat) : Option (List Nat) :=
  s.pages id

/-! ## SafePagedVector and the color pool leaf allocator
(Memory-Management: `SafePagedVector::Append`, `SetLeaf`)

The vector materializes whole pages; `words` holds the words of the
`usedPages` allocated pages (the `Append` initializer in `SetLeaf` is a no-op,
so fresh pages are modelled as zeros). -/

structure SafePagedVector where
  pageSizeWords : Nat
  totalPages : Nat
  usedPages : Nat
  words : List Nat
  deriving DecidableEq

def requiredPages (v : SafePagedVector) (count : Nat) : Nat :=
  (count + v.pageSizeWords - 1) / v.pageSizeWords

/-- `SafePagedVector::Append(count, initializer)`: fail with `none` when the
pages are exhausted or the request does not fit, otherwise allocate whole pages
and return the start index of the new allocation. -/
def Append (v : SafePagedVector) (count : Nat) : Option Nat × SafePagedVector :=
  if v.usedPages ≥ v.totalPages then (none, v)
  else if v.usedPages + requiredPages v count > v.totalPages then (none, v)
  else
    (some (v.usedPages * v.pageSizeWords),
      { v with
        usedPages := v.usedPages + requiredPages v count
        words := v.words ++ List.replicate (requiredPages v count * v.pageSizeWords) 0 })

def SPVRead (v : SafePagedVector) (i : Nat) : Nat :=
  v.words.getD i 0

def SPVWrite (v : SafePagedVector) (i : Nat) (data : List Nat) : SafePagedVector :=
  { v with words := overwrite v.words i data }

/-- Tag of a `DAGColorPool::Pointer`. -/
inductive CPTag where
  | kNode | kColor | kLeaf | kNull
  deriving DecidableEq, Repr

/-- A `DAGColorPool::Pointer`: tag plus data packed in one word. -/
structure CPointer where
  tag : CPTag
  data : Nat
  deriving DecidableEq, Repr

/-- The slow path of `SetLeaf`: append a slot of `asz` words and write the
chunk into it; when the append fails return the pre-edit pointer and the
untouched vector. -/
def setLeafAppend (v : SafePagedVector) (ptr : CPointer) (chunk : List Nat)
    (asz : Nat) : CPointer × SafePagedVector :=
  match Append v asz with
  | (none, _) => (ptr, v)
  | (some idx, v') => (⟨CPTag.kLeaf, idx⟩, SPVWrite v' (idx + 1) chunk)

/-- `DAGColorPool::SetLeaf(ptr, chunk)`: with `!keep_history` and a leaf
pointer whose slot capacity (the size word at the slot start) fits the chunk,
write the chunk into the same slot and return the pointer unchanged; otherwise
append a fresh slot (doubling a too-small reused slot's size) and write there.
The chunk is modelled by its serialized words; `calculate_chunk_size` is its
length and the `&1` rounding keeps slots even-sized. -/
def SetLeaf (keep_history : Bool) (v : SafePagedVector) (ptr : CPointer)
    (chunk : List Nat) : CPointer × SafePagedVector :=
  let data_size := chunk.length
  let append_size := if data_size % 2 = 1 then data_size + 1 else data_size
  if keep_history = false ∧ ptr.tag = CPTag.kLeaf then
    let existing := SPVRead v ptr.data
    if data_size ≤ existing then (ptr, SPVWrite v (ptr.data + 1) chunk)
    else setLeafAppend v ptr chunk (max (existing * 2) append_size)
  else setLeafAppend v ptr chunk append_size

/-! ## Geometry octree

A `NodePointer` denotes a subtree: the `Null` sentinel, the `Filled` sentinel,
a stored 4x4x4 leaf (64 voxel bits, stored as two words in the source), or a
stored inner node with 8 children.  Under hash-consing two pointers are equal
iff they denote structurally identical subtrees, so the embedding identifies a
pointer with the (canonical) subtree it denotes: `NodeTree` equality models
pointer equality. -/

inductive NodeTree where
  | null : NodeTree
  | filled : NodeTree
  | leaf (bits : List Bool) : NodeTree
  | node (c0 c1 c2 c3 c4 c5 c6 c7 : NodeTree) : NodeTree
  deriving DecidableEq, Repr

/-- Voxel / node coordinates (all components below 2^32 in every reachable
configuration). -/
structure V3 where
  x : Nat
  y : Nat
  z : Nat
  deriving DecidableEq, Repr

/-- Side length, in voxels, of the cube covered by a subtree that is `d`
levels above the leaf level (a leaf covers 4x4x4). -/
def side (d : Nat) : Nat := 4 * 2 ^ d

/-- Local coordinates within a subtree `d` levels above the leaf level. -/
def inCube (d : Nat) (p : V3) : Prop :=
  p.x < side d ∧ p.y < side d ∧ p.z < side d

instance (d : Nat) (p : V3) : Decidable (inCube d p) := by
  unfold inCube; infer_instance

/-- Global voxel coordinate of local coordinate `p` inside the subtree at
node coordinate `pos`, `d` levels above the leaf level (the node's lower bound
at the voxel level is `pos * side d`). -/
def glob (d : Nat) (pos p : V3) : V3 :=
  ⟨pos.x * side d + p.x, pos.y * side d + p.y, pos.z * side d + p.z⟩

/-- Child octant index of a local coordinate: one bit per axis, x least
significant (child ordering is lexicographic over octant index, z-y-x major). -/
def octantOf (d : Nat) (p : V3) : Nat :=
  p.x / side d + 2 * (p.y / side d) + 4 * (p.z / side d)

/-- Local coordinate within the child octant. -/
def residual (d : Nat) (p : V3) : V3 :=
  ⟨p.x % side d, p.y % side d, p.z % side d⟩

/-- Node coordinate of child octant `i` (doubling per level). -/
def childPos (pos : V3) (i : Nat) : V3 :=
  ⟨2 * pos.x + i % 2, 2 * pos.y + i / 2 % 2, 2 * pos.z + i / 4⟩

/-- Global-within-parent coordinate of local coordinate `p` of child octant
`i` (the inverse of taking octant and residual). -/
def embedPos (d i : Nat) (p : V3) : V3 :=
  ⟨i % 2 * side d + p.x, i / 2 % 2 * side d + p.y, i / 4 * side d + p.z⟩

/-- Child subtree of a pointer: every child of `Filled` is `Filled`, every
child of `Null` is `Null`, a stored inner node yields its stored child. -/
def child : NodeTree → Nat → NodeTree
  | .node c0 c1 c2 c3 c4 c5 c6 c7, i =>
    match i with
    | 0 => c0 | 1 => c1 | 2 => c2 | 3 => c3
    | 4 => c4 | 5 => c5 | 6 => c6 | 7 => c7
    | _ => .null
  | .filled, _ => .filled
  | _, _ => .null

def mkNode (f : Nat → NodeTree) : NodeTree :=
  .node (f 0) (f 1) (f 2) (f 3) (f 4) (f 5) (f 6) (f 7)

/-- Bit index of a voxel inside a 4x4x4 leaf. -/
def bitIndex (p : V3) : Nat := p.x + 4 * p.y + 16 * p.z

/-- Voxel coordinate of a leaf bit index. -/
def posOfBit (i : Nat) : V3 := ⟨i % 4, i / 4 % 4, i / 16⟩

/-- Normalization of a leaf before upsert: all-zeros becomes the `Null`
sentinel, all-ones becomes the `Filled` sentinel.
Modelled from the spec: the doc pseudocode upserts through `upsert_leaf`
without showing this step; the spec states it MUST happen before upsert. -/
def normalizeLeaf (bits : List Bool) : NodeTree :=
  if bits = List.replicate 64 false then .null
  else if bits = List.replicate 64 true then .filled
  else .leaf bits

/-- Normalization of an inner node before upsert: every child `Null` becomes
the `Null` sentinel, every child `Filled` becomes the `Filled` sentinel.
Modelled from the spec: the doc pseudocode upserts through
`upsert_inner_node` without showing this step; the spec states it MUST happen
before upsert. -/
def normalizeNode (f : Nat → NodeTree) : NodeTree :=
  if f 0 = .null ∧ f 1 = .null ∧ f 2 = .null ∧ f 3 = .null ∧
     f 4 = .null ∧ f 5 = .null ∧ f 6 = .null ∧ f 7 = .null then .null
  else if f 0 = .filled ∧ f 1 = .filled ∧ f 2 = .filled ∧ f 3 = .filled ∧
     f 4 = .filled ∧ f 5 = .filled ∧ f 6 = .filled ∧ f 7 = .filled then .filled
  else mkNode f

/-- `EditType`: per-subtree verdict from an editor. -/
inductive EditType where
  | kNotAffected | kClear | kFill | kProceed
  deriving DecidableEq, Repr

/-- The plain `Editor` capability set: `EditNode(config, coord, ptr)` and
`EditVoxel(config, coord, voxel)`.  The node coordinate is passed as the level
(as distance `d` above the leaf level) plus node position; the voxel
coordinate is global. -/
structure GEditor where
  editNode : Nat → V3 → NodeTree → EditType
  editVoxel : V3 → Bool → Bool

def SoundNA (E : GEditor) : Prop :=
  ∀ d pos t, E.editNode d pos t = .kNotAffected →
    ∀ p, inCube d p → ∀ b, E.editVoxel (glob d pos p) b = b

def SoundCl (E : GEditor) : Prop :=
  ∀ d pos t, E.editNode d pos t = .kClear →
    ∀ p, inCube d p → ∀ b, E.editVoxel (glob d pos p) b = false

def SoundFi (E : GEditor) : Prop :=
  ∀ d pos t, E.editNode d pos t = .kFill →
    ∀ p, inCube d p → ∀ b, E.editVoxel (glob d pos p) b = true

/-- The 64 voxel bits denoted by a pointer at leaf level (`Filled` decodes to
all ones, `Null` to all zeros, a stored leaf to its stored bits). -/
def decodeLeaf : NodeTree → List Bool
  | .null => List.replicate 64 false
  | .filled => List.replicate 64 true
  | .leaf bits => bits
  | .node _ _ _ _ _ _ _ _ => List.replicate 64 false

/-- The recursive rewrite of a subtree at `(level, coord, ptr)`:
ask the editor for a decision; `Unaffected` returns the pointer unchanged,
`Clear` returns `Null`, `Fill` returns `Filled` (at leaf level the all-ones
leaf, which normalizes to `Filled`); `Proceed` edits the 64 voxels of a leaf
(decode, `EditVoxel` each, reassemble, normalize) or rewrites the 8 children
of an inner node (recurse, construct candidate, normalize).  Hash-consed
upsert of the normalized candidate is the identity on the denoted subtree, so
it does not appear. -/
def editT (E : GEditor) : Nat → V3 → NodeTree → NodeTree
  | 0, pos, t =>
    match E.editNode 0 pos t with
    | .kNotAffected => t
    | .kClear => .null
    | .kFill => normalizeLeaf (List.replicate 64 true)
    | .kProceed =>
      normalizeLeaf (List.ofFn fun i : Fin 64 =>
        E.editVoxel (glob 0 pos (posOfBit i.val)) ((decodeLeaf t).getD i.val false))
  | d + 1, pos, t =>
    match E.editNode (d + 1) pos t with
    | .kNotAffected => t
    | .kClear => .null
    | .kFill => .filled
    | .kProceed =>
      normalizeNode fun i => editT E d (childPos pos i) (child t i)

/-- Occupancy readback: the voxel bit at local coordinate `p` of the subtree
denoted by a pointer `d` levels above the leaf level. -/
def voxelAt : Nat → NodeTree → V3 → Bool
  | 0, .null, _ => false
  | 0, .filled, _ => true
  | 0, .leaf bits, p => bits.getD (bitIndex p) false
  | 0, .node _ _ _ _ _ _ _ _, _ => false
  | _ + 1, .null, _ => false
  | _ + 1, .filled, _ => true
  | _ + 1, .leaf _, _ => false
  | d + 1, .node c0 c1 c2 c3 c4 c5 c6 c7, p =>
    voxelAt d (child (.node c0 c1 c2 c3 c4 c5 c6 c7) (octantOf d p)) (residual d p)

/-- Well-formedness: leaves exactly at leaf level, inner nodes above it. -/
def WFB : Nat → NodeTree → Bool
  | 0, .null => true
  | 0, .filled => true
  | 0, .leaf bits => decide (bits.length = 64)
  | 0, .node _ _ _ _ _ _ _ _ => false
  | _ + 1, .null => true
  | _ + 1, .filled => true
  | _ + 1, .leaf _ => false
  | d + 1, .node c0 c1 c2 c3 c4 c5 c6 c7 =>
    WFB d c0 && WFB d c1 && WFB d c2 && WFB d c3 &&
    WFB d c4 && WFB d c5 && WFB d c6 && WFB d c7

/-- Canonical form: well-formed, and no stored leaf is all-zeros or all-ones,
no stored inner node has all children `Null` or all children `Filled` (the
normalization invariant on every reachable pointer). -/
def CanonB : Nat → NodeTree → Bool
  | 0, .null => true
  | 0, .filled => true
  | 0, .leaf bits =>
    decide (bits.length = 64 ∧ bits ≠ List.replicate 64 false ∧
      bits ≠ List.replicate 64 true)
  | 0, .node _ _ _ _ _ _ _ _ => false
  | _ + 1, .null => true
  | _ + 1, .filled => true
  | _ + 1, .leaf _ => false
  | d + 1, .node c0 c1 c2 c3 c4 c5 c6 c7 =>
    decide ¬ (c0 = .null ∧ c1 = .null ∧ c2 = .null ∧ c3 = .null ∧
      c4 = .null ∧ c5 = .null ∧ c6 = .null ∧ c7 = .null) &&
    decide ¬ (c0 = .filled ∧ c1 = .filled ∧ c2 = .filled ∧ c3 = .filled ∧
      c4 = .filled ∧ c5 = .filled ∧ c6 = .filled ∧ c7 = .filled) &&
    (CanonB d c0 && CanonB d c1 && CanonB d c2 && CanonB d c3 &&
     CanonB d c4 && CanonB d c5 && CanonB d c6 && CanonB d c7)

/-! ## Editors from `src/main.cpp`

`VBRColor` is a packed color word with an empty state (`VBRColor{}`); it is
embedded as `Option Nat` (`none` = empty).  `hashdag::VBREditorWrapper`
forwards the color-threaded `EditNode` / `EditVoxel` to drive the geometry
descent; a `StatelessEditor` is forwarded unchanged. -/

/-- `AABBEditor::VoxelInRange`:
`glm::all(greaterThanEqual(coord.pos, aabb_min)) && glm::all(lessThan(coord.pos, aabb_max))`. -/
def inAABB (mn mx q : V3) : Bool :=
  decide (mn.x ≤ q.x ∧ mn.y ≤ q.y ∧ mn.z ≤ q.z ∧ q.x < mx.x ∧ q.y < mx.y ∧ q.z < mx.z)

/-- `NodeCoord::GetLowerBoundAtLevel(voxel_level)`: the node's inclusive
voxel-level lower bound. -/
def nodeLB (d : Nat) (pos : V3) : V3 :=
  ⟨pos.x * side d, pos.y * side d, pos.z * side d⟩

/-- `NodeCoord::GetUpperBoundAtLevel(voxel_level)`: the node's exclusive
voxel-level upper bound. -/
def nodeUB (d : Nat) (pos : V3) : V3 :=
  ⟨pos.x * side d + side d, pos.y * side d + side d, pos.z * side d + side d⟩

/-- `AABBEditor::EditNode(config, coord, ptr)`: from the node's voxel-level
bounds, `kNotAffected` when some axis has `ub <= aabb_min` or `lb >= aabb_max`,
`kFill` when the box covers the node, otherwise `kProceed`. -/
def aabbEditNode (mn mx : V3) (d : Nat) (pos : V3) : EditType :=
  if (nodeUB d pos).x ≤ mn.x ∨ (nodeUB d pos).y ≤ mn.y ∨ (nodeUB d pos).z ≤ mn.z ∨
     mx.x ≤ (nodeLB d pos).x ∨ mx.y ≤ (nodeLB d pos).y ∨ mx.z ≤ (nodeLB d pos).z then
    .kNotAffected
  else if mn.x ≤ (nodeLB d pos).x ∧ mn.y ≤ (nodeLB d pos).y ∧ mn.z ≤ (nodeLB d pos).z ∧
     (nodeUB d pos).x ≤ mx.x ∧ (nodeUB d pos).y ≤ mx.y ∧ (nodeUB d pos).z ≤ mx.z then
    .kFill
  else .kProceed

/-- `AABBEditor::EditVoxel(config, coord, voxel)`: `voxel || VoxelInRange(coord)`. -/
def aabbEditVoxel (mn mx : V3) (q : V3) (v : Bool) : Bool :=
  v || inAABB mn mx q

/-- `AABBEditor::EditNode(config, coord, ptr, final_color)`: the same decision
as the color-less overload; `final_color` becomes the editor's color when the
decision is `kFill`, the pointer is `Null`, or the incoming `final_color`
already equals the editor's color, and empty otherwise. -/
def aabbEditNodeVBR (mn mx : V3) (col : Nat) (d : Nat) (pos : V3)
    (isNull : Bool) (cin : Option Nat) : EditType × Option Nat :=
  let et := aabbEditNode mn mx d pos
  (et, if et = .kFill ∨ isNull = true ∨ cin = some col then some col else none)

/-- `AABBEditor::EditVoxel(config, coord, voxel, color)`:
`color = in_range || !voxel ? this->color : color; return voxel || in_range;`. -/
def aabbEditVoxelVBR (mn mx : V3) (col : Nat) (q : V3) (v : Bool)
    (cin : Option Nat) : Bool × Option Nat :=
  let inr := inAABB mn mx q
  (v || inr, if inr = true ∨ v = false then some col else cin)

/-- `EditMode` of `SphereEditor`. -/
inductive EditMode where
  | kFill | kDig | kPaint
  deriving DecidableEq, Repr

/-- The per-axis squared-distance upper bound of `SphereEditor::EditNode`:
`max_dist_2 = max(lb_dist^2, ub_dist^2)` summed over the axes
(`lb_dist = lb - center`, `ub_dist = ub - center`, in 64-bit signed/unsigned
arithmetic, embedded in `Int`). -/
def sphereMaxN2 (center lb ub : V3) : Int :=
  max (((lb.x : Int) - center.x) ^ 2) (((ub.x : Int) - center.x) ^ 2) +
  max (((lb.y : Int) - center.y) ^ 2) (((ub.y : Int) - center.y) ^ 2) +
  max (((lb.z : Int) - center.z) ^ 2) (((ub.z : Int) - center.z) ^ 2)

/-- The squared-distance lower bound of `SphereEditor::EditNode`: per axis,
`lb_dist^2` when `lb_dist > 0`, plus `ub_dist^2` when `ub_dist < 0`. -/
def sphereMinN2 (center lb ub : V3) : Int :=
  (if ((lb.x : Int) - center.x) > 0 then ((lb.x : Int) - center.x) ^ 2 else 0) +
  (if ((ub.x : Int) - center.x) < 0 then ((ub.x : Int) - center.x) ^ 2 else 0) +
  (if ((lb.y : Int) - center.y) > 0 then ((lb.y : Int) - center.y) ^ 2 else 0) +
  (if ((ub.y : Int) - center.y) < 0 then ((ub.y : Int) - center.y) ^ 2 else 0) +
  (if ((lb.z : Int) - center.z) > 0 then ((lb.z : Int) - center.z) ^ 2 else 0) +
  (if ((ub.z : Int) - center.z) < 0 then ((ub.z : Int) - center.z) ^ 2 else 0)

/-- `SphereEditor::EditNode(config, coord, ptr)`: `kClear` (Dig) or `kFill`
(Fill/Paint) when the node's bounds lie entirely within radius
(`max_n2 <= r2`), `kNotAffected` when entirely outside (`min_n2 > r2`),
otherwise `kProceed`. -/
def sphereEditNode (mode : EditMode) (center : V3) (r2 : Nat) (d : Nat)
    (pos : V3) : EditType :=
  if sphereMaxN2 center (nodeLB d pos) (nodeUB d pos) ≤ (r2 : Int) then
    (if mode = EditMode.kDig then .kClear else .kFill)
  else if sphereMinN2 center (nodeLB d pos) (nodeUB d pos) > (r2 : Int) then
    .kNotAffected
  else .kProceed

/-- `SphereEditor::VoxelInRange`: squared distance of the voxel to the center
is at most `r2`. -/
def voxelInRange (center : V3) (r2 : Nat) (q : V3) : Bool :=
  decide (((q.x : Int) - center.x) ^ 2 + ((q.y : Int) - center.y) ^ 2 +
      ((q.z : Int) - center.z) ^ 2 ≤ (r2 : Int))

/-- `SphereEditor::EditVoxel(config, coord, voxel)`: Paint returns the voxel
unchanged, Fill returns `voxel || in_range`, Dig returns `voxel && !in_range`. -/
def sphereEditVoxel (mode : EditMode) (center : V3) (r2 : Nat) (q : V3)
    (v : Bool) : Bool :=
  if mode = EditMode.kPaint then v
  else if mode = EditMode.kFill then v || voxelInRange center r2 q
  else v && !voxelInRange center r2 q

/-- `SphereEditor::EditNode(config, coord, ptr, final_color)`
(`static_assert(Mode != kDig)`): start from the color-less decision; on
`kFill` set `final_color` to the editor's color and, in Paint mode, demote the
decision to `kNotAffected`; otherwise thread `final_color` as for the AABB
editor; finally, in Paint mode a `Null` pointer also demotes the decision to
`kNotAffected`. -/
def sphereEditNodeVBR (mode : EditMode) (center : V3) (r2 : Nat) (col : Nat)
    (d : Nat) (pos : V3) (isNull : Bool) (cin : Option Nat) :
    EditType × Option Nat :=
  let et1 := sphereEditNode mode center r2 d pos
  let p1 : EditType × Option Nat :=
    if et1 = .kFill then
      ((if mode = EditMode.kPaint then .kNotAffected else et1), some col)
    else (et1, if isNull = true ∨ cin = some col then some col else none)
  if mode = EditMode.kPaint ∧ isNull = true then (.kNotAffected, p1.2) else p1

/-- `SphereEditor::EditVoxel(config, coord, voxel, color)`
(`static_assert(Mode != kDig)`):
`color = in_range || !voxel ? this->color : color;
return Mode == kFill ? voxel || in_range : voxel;`. -/
def sphereEditVoxelVBR (mode : EditMode) (center : V3) (r2 : Nat) (col : Nat)
    (q : V3) (v : Bool) (cin : Option Nat) : Bool × Option Nat :=
  let inr := voxelInRange center r2 q
  ((if mode = EditMode.kFill then v || inr else v),
   if inr = true ∨ v = false then some col else cin)

/-- A `VBREditor` capability set: `EditNode` and `EditVoxel` threading a
mutable color, embedded as functions returning the updated color. -/
structure VEditor where
  editNodeV : Nat → V3 → NodeTree → Option Nat → EditType × Option Nat
  editVoxelV : V3 → Bool → Option Nat → Bool × Option Nat

/-- The geometry face of a `VBREditor` as driven through
`VBREditorWrapper`: the edit decisions and voxel bits of the wrapped editor.
For the editors of `main.cpp` the decision and the voxel bit do not depend on
the threaded color, so it is passed as empty. -/
def geomOf (E : VEditor) : GEditor :=
  ⟨fun d pos t => (E.editNodeV d pos t none).1,
   fun q v => (E.editVoxelV q v none).1⟩

def aabbVEditor (mn mx : V3) (col : Nat) : VEditor :=
  ⟨fun d pos t cin => aabbEditNodeVBR mn mx col d pos (decide (t = .null)) cin,
   fun q v cin => aabbEditVoxelVBR mn mx col q v cin⟩

def sphereVEditor (mode : EditMode) (center : V3) (r2 : Nat) (col : Nat) :
    VEditor :=
  ⟨fun d pos t cin =>
    sphereEditNodeVBR mode center r2 col d pos (decide (t = .null)) cin,
   fun q v cin => sphereEditVoxelVBR mode center r2 col q v cin⟩

/-- The plain geometry editor of a Dig sphere (submitted through
`StatelessEditorWrapper`, which forwards the color-less capability set). -/
def digEditor (center : V3) (r2 : Nat) : GEditor :=
  ⟨fun d pos _ => sphereEditNode EditMode.kDig center r2 d pos,
   fun q v => sphereEditVoxel EditMode.kDig center r2 q v⟩

/-- The geometry editor of an AABB fill as driven through
`VBREditorWrapper` (its decisions equal the color-less `EditNode`'s). -/
def aabbGEditor (mn mx : V3) (col : Nat) : GEditor :=
  geomOf (aabbVEditor mn mx col)

/-- The geometry editor of a Paint sphere as driven through
`VBREditorWrapper`. -/
def paintGEditor (center : V3) (r2 : Nat) (col : Nat) : GEditor :=
  geomOf (sphereVEditor EditMode.kPaint center r2 col)

/-! ## VBR color chunks

Modelled from the spec: the VBR codec sources are not under `src/`; the chunk
layout, writer rules and reader are taken from the spec's codec section.  A
block header holds endpoints A and B, the weight-bit width and the run length;
the weight bitstream is a packed bit list.  The writer below uses the exact
rules (extend on an endpoint match, otherwise close the block and open a new
one with endpoints (previous color, new color) and one weight bit); the
interpolation extension rule is not modelled (its weight-bit ladder is an open
question in the source).  The macro-block array is a random-access
acceleration index into the block headers; the reader below scans the block
headers from the start, which the spec defines to be equivalent.  Colors are
`Option Nat` (`none` = the empty `VBRColor`). -/

structure VBRBlockHeader where
  a : Option Nat
  b : Option Nat
  wbits : Nat
  len : Nat
  deriving DecidableEq, Repr

structure VBRChunkM where
  blocks : List VBRBlockHeader
  bits : List Bool
  deriving DecidableEq, Repr

structure VBRWriterState where
  blocks : List VBRBlockHeader
  bits : List Bool
  cur : Option VBRBlockHeader
  last : Option Nat
  deriving DecidableEq, Repr

/-- Append one voxel color to the writer (spec writer rules). -/
def vbrAppend (w : VBRWriterState) (c : Option Nat) : VBRWriterState :=
  match w.cur with
  | none => { w with cur := some ⟨c, c, 0, 1⟩, last := c }
  | some blk =>
    if blk.wbits = 0 then
      if c = blk.a then { w with cur := some { blk with len := blk.len + 1 }, last := c }
      else
        { blocks := w.blocks ++ [blk], bits := w.bits ++ [true],
          cur := some ⟨w.last, c, 1, 1⟩, last := c }
    else
      if c = blk.a then
        { w with bits := w.bits ++ [false],
                 cur := some { blk with len := blk.len + 1 }, last := c }
      else if c = blk.b then
        { w with bits := w.bits ++ [true],
                 cur := some { blk with len := blk.len + 1 }, last := c }
      else
        { blocks := w.blocks ++ [blk], bits := w.bits ++ [true],
          cur := some ⟨w.last, c, 1, 1⟩, last := c }

def vbrFinalize (w : VBRWriterState) : VBRChunkM :=
  ⟨w.blocks ++ (match w.cur with | some blk => [blk] | none => []), w.bits⟩

/-- Encode a voxel color sequence as a chunk. -/
def vbrEncode (cs : List (Option Nat)) : VBRChunkM :=
  vbrFinalize (cs.foldl vbrAppend ⟨[], [], none, none⟩)

/-- Scan the block headers for the block containing voxel index `i`, dropping
the weight bits consumed by the blocks that precede it; a zero-width block
decodes to endpoint A, otherwise the weight bit selects between A and B. -/
def vbrReadBlocks : List VBRBlockHeader → List Bool → Nat → Option Nat
  | [], _, _ => none
  | blk :: rest, bits, i =>
    if i < blk.len then
      if blk.wbits = 0 then blk.a
      else if bits.getD (i * blk.wbits) false then blk.b else blk.a
    else vbrReadBlocks rest (bits.drop (blk.len * blk.wbits)) (i - blk.len)

/-- Random-access decode of voxel index `i` from a chunk. -/
def vbrRead (ch : VBRChunkM) (i : Nat) : Option Nat :=
  vbrReadBlocks ch.blocks ch.bits i

/-! ## Color octree

A `DAGColorPool::Pointer` denotes a color subtree: `Null` (no color),
`SolidColor`, a stored inner node with 8 children, or a stored VBR leaf chunk
covering the whole cube of its level, voxels linearized in Morton order. -/

inductive ColorTree where
  | cnull : ColorTree
  | csolid (c : Nat) : ColorTree
  | cnode (k0 k1 k2 k3 k4 k5 k6 k7 : ColorTree) : ColorTree
  | cleaf (ch : VBRChunkM) : ColorTree
  deriving DecidableEq, Repr

def cchild : ColorTree → Nat → ColorTree
  | .cnode k0 k1 k2 k3 k4 k5 k6 k7, i =>
    match i with
    | 0 => k0 | 1 => k1 | 2 => k2 | 3 => k3
    | 4 => k4 | 5 => k5 | 6 => k6 | 7 => k7
    | _ => .cnull
  | .csolid c, _ => .csolid c
  | _, _ => .cnull

/-- Morton (z-order) index of a local coordinate inside a cube of side `2^n`:
octant-major, then recursively within the octant. -/
def mortonIdx : Nat → V3 → Nat
  | 0, _ => 0
  | n + 1, p =>
    (p.x / 2 ^ n + 2 * (p.y / 2 ^ n) + 4 * (p.z / 2 ^ n)) * 8 ^ n +
      mortonIdx n ⟨p.x % 2 ^ n, p.y % 2 ^ n, p.z % 2 ^ n⟩

/-- Local coordinate of a Morton index inside a cube of side `2^n`. -/
def mortonPos : Nat → Nat → V3
  | 0, _ => ⟨0, 0, 0⟩
  | n + 1, i =>
    let o := i / 8 ^ n % 8
    let r := mortonPos n (i % 8 ^ n)
    ⟨o % 2 * 2 ^ n + r.x, o / 2 % 2 * 2 ^ n + r.y, o / 4 * 2 ^ n + r.z⟩

/-- Color readback: the color of the voxel at local coordinate `p` of the
color subtree `d` levels above the geometry leaf level (a VBR leaf covers its
whole cube, side `2^(d+2)` voxels per axis). -/
def colorAt : Nat → ColorTree → V3 → Option Nat
  | _, .cnull, _ => none
  | _, .csolid c, _ => some c
  | d, .cleaf ch, p => vbrRead ch (mortonIdx (d + 2) p)
  | 0, .cnode _ _ _ _ _ _ _ _, _ => none
  | d + 1, .cnode k0 k1 k2 k3 k4 k5 k6 k7, p =>
    colorAt d (cchild (.cnode k0 k1 k2 k3 k4 k5 k6 k7) (octantOf d p)) (residual d p)

/-- Rewrite of a VBR leaf at color-leaf level: decode the current chunk,
invoke `EditVoxel` per voxel (Morton order) threading the color, re-encode. -/
def colorLeafStep (E : VEditor) (d : Nat) (pos : V3) (g : NodeTree)
    (c : ColorTree) : ColorTree :=
  .cleaf (vbrEncode (List.ofFn fun i : Fin (8 ^ (d + 2)) =>
    (E.editVoxelV (glob d pos (mortonPos (d + 2) i.val))
      (voxelAt d g (mortonPos (d + 2) i.val))
      (colorAt d c (mortonPos (d + 2) i.val))).2))

/-- Modelled from the spec: the octree-fused color edit of
`VBREditorWrapper` (its sources are not under `src/`).  In lock-step with the
geometry descent: a `Fill` decision with a set color yields `SolidColor`;
whenever the geometry output is `Null` the color output is `Null`; `Proceed`
descends until the color-leaf level `dK` (as distance above the geometry leaf
level), where the VBR leaf is decoded, edited per voxel and re-encoded. -/
def colorEdit (E : VEditor) (dK : Nat) : Nat → V3 → NodeTree → ColorTree →
    Option Nat → ColorTree
  | 0, pos, g, c, cin =>
    match E.editNodeV 0 pos g cin with
    | (.kNotAffected, _) => if g = .null then .cnull else c
    | (.kClear, _) => .cnull
    | (.kFill, c') => match c' with | some v => .csolid v | none => .cnull
    | (.kProceed, _) =>
      if editT (geomOf E) 0 pos g = .null then .cnull
      else colorLeafStep E 0 pos g c
  | d + 1, pos, g, c, cin =>
    match E.editNodeV (d + 1) pos g cin with
    | (.kNotAffected, _) => if g = .null then .cnull else c
    | (.kClear, _) => .cnull
    | (.kFill, c') => match c' with | some v => .csolid v | none => .cnull
    | (.kProceed, c') =>
      if editT (geomOf E) (d + 1) pos g = .null then .cnull
      else if d + 1 = dK then colorLeafStep E (d + 1) pos g c
      else
        .cnode
          (colorEdit E dK d (childPos pos 0) (child g 0) (cchild c 0) c')
          (colorEdit E dK d (childPos pos 1) (child g 1) (cchild c 1) c')
          (colorEdit E dK d (childPos pos 2) (child g 2) (cchild c 2) c')
          (colorEdit E dK d (childPos pos 3) (child g 3) (cchild c 3) c')
          (colorEdit E dK d (childPos pos 4) (child g 4) (cchild c 4) c')
          (colorEdit E dK d (childPos pos 5) (child g 5) (cchild c 5) c')
          (colorEdit E dK d (childPos pos 6) (child g 6) (cchild c 6) c')
          (colorEdit E dK d (childPos pos 7) (child g 7) (cchild c 7) c')

/-! ## Lemmas: hash-consed pool -/

theorem find_node_eq_none {l : List (List Nat)} {ws : List Nat} :
    find_node l ws = none ↔ ws ∉ l := by
  induction l with
  | nil => simp [find_node]
  | cons n rest ih =>
    by_cases h : n = ws
    · simp [find_node, h]
    · simp only [find_node, if_neg h, Option.map_eq_none', List.mem_cons, ih]
      constructor
      · intro hn hc
        rcases hc with hc | hc
        · exact h hc.symm
        · exact hn hc
      · intro hn
        exact fun hc => hn (Or.inr hc)

theorem find_node_append_self {l : List (List Nat)} {ws : List Nat}
    (h : ws ∉ l) : find_node (l ++ [ws]) ws = some l.length := by
  induction l with
  | nil => simp [find_node]
  | cons n rest ih =>
    have hne : n ≠ ws := fun hc => h (by simp [hc])
    have hrest : ws ∉ rest := fun hc => h (List.mem_cons_of_mem _ hc)
    simp [find_node, hne, ih hrest]

theorem upsert_node_eq_found {cfg : PoolConfig} {p : Pool} {level : Nat}
    {ws : List Nat} {i : Nat}
    (hf : find_node (p.buckets (calculate_bucket cfg level ws)) ws = some i) :
    upsert_node cfg p level ws = ((calculate_bucket cfg level ws, i), p) := by
  simp only [upsert_node, hf]

theorem upsert_node_eq_new {cfg : PoolConfig} {p : Pool} {level : Nat}
    {ws : List Nat}
    (hf : find_node (p.buckets (calculate_bucket cfg level ws)) ws = none) :
    upsert_node cfg p level ws =
      ((calculate_bucket cfg level ws,
        (p.buckets (calculate_bucket cfg level ws)).length),
       ⟨updBuckets p.buckets (calculate_bucket cfg level ws)
         (p.buckets (calculate_bucket cfg level ws) ++ [ws])⟩) := by
  simp only [upsert_node, hf]

theorem upsert_node_nodup (cfg : PoolConfig) (p : Pool) (level : Nat)
    (ws : List Nat) (h : ∀ b, (p.buckets b).Nodup) :
    ∀ b, (((upsert_node cfg p level ws).2).buckets b).Nodup := by
  intro b
  cases hf : find_node (p.buckets (calculate_bucket cfg level ws)) ws with
  | some i => rw [upsert_node_eq_found hf]; exact h b
  | none =>
    rw [upsert_node_eq_new hf]
    show ((updBuckets p.buckets (calculate_bucket cfg level ws)
      (p.buckets (calculate_bucket cfg level ws) ++ [ws])) b).Nodup
    unfold updBuckets
    by_cases hb : b = calculate_bucket cfg level ws
    · rw [if_pos hb, List.nodup_append]
      refine ⟨h _, List.nodup_singleton ws, ?_⟩
      intro x hx hmem
      rw [List.mem_singleton] at hmem
      subst hmem
      exact (find_node_eq_none.mp hf) hx
    · rw [if_neg hb]
      exact h b

theorem upsert_node_idem (cfg : PoolConfig) (p : Pool) (level : Nat)
    (ws : List Nat) :
    (upsert_node cfg ((upsert_node cfg p level ws).2) level ws).1 =
      (upsert_node cfg p level ws).1 ∧
    (upsert_node cfg ((upsert_node cfg p level ws).2) level ws).2 =
      (upsert_node cfg p level ws).2 := by
  cases hf : find_node (p.buckets (calculate_bucket cfg level ws)) ws with
  | some i => rw [upsert_node_eq_found hf, upsert_node_eq_found hf]; exact ⟨rfl, rfl⟩
  | none =>
    rw [upsert_node_eq_new hf]
    have hb : ((⟨updBuckets p.buckets (calculate_bucket cfg level ws)
        (p.buckets (calculate_bucket cfg level ws) ++ [ws])⟩ : Pool)).buckets
        (calculate_bucket cfg level ws) =
        p.buckets (calculate_bucket cfg level ws) ++ [ws] := by
      show (updBuckets _ _ _) _ = _
      unfold updBuckets
      rw [if_pos rfl]
    have hf2 : find_node (((⟨updBuckets p.buckets (calculate_bucket cfg level ws)
        (p.buckets (calculate_bucket cfg level ws) ++ [ws])⟩ : Pool)).buckets
        (calculate_bucket cfg level ws)) ws =
        some (p.buckets (calculate_bucket cfg level ws)).length := by
      rw [hb]
      exact find_node_append_self (find_node_eq_none.mp hf)
    rw [upsert_node_eq_found hf2]
    exact ⟨rfl, rfl⟩

theorem upsertMany_nodup (cfg : PoolConfig) :
    ∀ (ops : List (Nat × List Nat)) (p : Pool),
      (∀ b, (p.buckets b).Nodup) →
      ∀ b, ((upsertMany cfg p ops).buckets b).Nodup := by
  intro ops
  induction ops with
  | nil => intro p h b; exact h b
  | cons op rest ih =>
    intro p h b
    exact ih _ (upsert_node_nodup cfg p op.1 op.2 h) b

theorem emptyPool_nodup : ∀ b, ((emptyPool).buckets b).Nodup := by
  intro b; exact List.nodup_nil

/-! ## Lemmas: paged stores -/

theorem overwrite_getD_lt {l data : List Nat} {off i : Nat}
    (hi : i < off) (hil : i < l.length) :
    (overwrite l off data).getD i 0 = l.getD i 0 := by
  unfold overwrite
  have htake : i < (l.take off).length := by
    simp only [List.length_take]
    omega
  have happ : i < (l.take off ++ data).length := by
    simp only [List.length_append]
    omega
  rw [List.getD_eq_getElem?_getD, List.getD_eq_getElem?_getD,
    List.getElem?_append_left happ, List.getElem?_append_left htake,
    List.getElem?_take_of_lt hi]

theorem getD_append_lt {l m : List Nat} {i : Nat} (h : i < l.length) :
    (l ++ m).getD i 0 = l.getD i 0 := by
  rw [List.getD_eq_getElem?_getD, List.getD_eq_getElem?_getD,
    List.getElem?_append_left h]

theorem Append_none_or_some (v : SafePagedVector) (asz : Nat) :
    (Append v asz = (none, v) ∧
      (v.usedPages ≥ v.totalPages ∨
        v.usedPages + requiredPages v asz > v.totalPages)) ∨
    (Append v asz = (some (v.usedPages * v.pageSizeWords),
      { v with
        usedPages := v.usedPages + requiredPages v asz
        words := v.words ++ List.replicate (requiredPages v asz * v.pageSizeWords) 0 }) ∧
      ¬ v.usedPages ≥ v.totalPages ∧
      ¬ v.usedPages + requiredPages v asz > v.totalPages) := by
  unfold Append
  by_cases h1 : v.usedPages ≥ v.totalPages
  · rw [if_pos h1]; exact Or.inl ⟨rfl, Or.inl h1⟩
  · rw [if_neg h1]
    by_cases h2 : v.usedPages + requiredPages v asz > v.totalPages
    · rw [if_pos h2]; exact Or.inl ⟨rfl, Or.inr h2⟩
    · rw [if_neg h2]; exact Or.inr ⟨rfl, h1, h2⟩

theorem setLeafAppend_no_inplace (v : SafePagedVector) (ptr : CPointer)
    (chunk : List Nat) (asz : Nat)
    (hinv : v.words.length = v.usedPages * v.pageSizeWords) :
    ∀ i, i < v.words.length →
      SPVRead (setLeafAppend v ptr chunk asz).2 i = SPVRead v i := by
  intro i hi
  rcases Append_none_or_some v asz with ⟨hA, _⟩ | ⟨hA, _⟩
  · unfold setLeafAppend
    rw [hA]
  · unfold setLeafAppend
    rw [hA]
    show SPVRead (SPVWrite _ _ _) i = _
    unfold SPVWrite SPVRead
    have hlen : i < (v.words ++
        List.replicate (requiredPages v asz * v.pageSizeWords) 0).length := by
      rw [List.length_append]
      omega
    rw [overwrite_getD_lt (by omega) hlen]
    exact getD_append_lt hi

theorem setLeafAppend_fresh (v : SafePagedVector) (ptr : CPointer)
    (chunk : List Nat) (asz idx : Nat)
    (hinv : v.words.length = v.usedPages * v.pageSizeWords)
    (hA : (Append v asz).1 = some idx) :
    (setLeafAppend v ptr chunk asz).1 = ⟨CPTag.kLeaf, idx⟩ ∧
      idx = v.words.length := by
  rcases Append_none_or_some v asz with ⟨h, _⟩ | ⟨h, _⟩
  · rw [h] at hA
    exact absurd hA (by simp)
  · rw [h] at hA
    have hidx : idx = v.usedPages * v.pageSizeWords := by
      simpa using hA.symm
    constructor
    · unfold setLeafAppend
      rw [h, hidx]
    · omega

theorem setLeafAppend_fail (v : SafePagedVector) (ptr : CPointer)
    (chunk : List Nat) (asz : Nat)
    (hA : (Append v asz).1 = none) :
    setLeafAppend v ptr chunk asz = (ptr, v) := by
  rcases Append_none_or_some v asz with ⟨h, _⟩ | ⟨h, _⟩
  · unfold setLeafAppend
    rw [h]
  · rw [h] at hA
    exact absurd hA (by simp)

/-! ## Claim theorems: pool and stores -/

/-- Claim C1: hash-consing uniqueness.  Starting from the empty pool, after
any sequence of upserts: upserting structurally equal candidate node word
sequences returns the same address (upserting a node and then upserting an
equal node returns the original address and leaves the pool unchanged), and
within every bucket no two distinct stored slots hold identical node words
(each bucket's stored list is duplicate-free, stated also as injectivity of
slot contents). -/
theorem C1_hash_consing_uniqueness (cfg : PoolConfig)
    (ops : List (Nat × List Nat)) (level : Nat) (n1 n2 : List Nat)
    (heq : n1 = n2) :
    ((upsert_node cfg ((upsert_node cfg (upsertMany cfg emptyPool ops) level n1).2)
        level n2).1 =
      (upsert_node cfg (upsertMany cfg emptyPool ops) level n1).1) ∧
    (∀ b, (((upsert_node cfg (upsertMany cfg emptyPool ops) level n1).2).buckets b).Nodup) ∧
    (∀ b i j (hi : i < (((upsert_node cfg (upsertMany cfg emptyPool ops) level n1).2).buckets b).length)
        (hj : j < (((upsert_node cfg (upsertMany cfg emptyPool ops) level n1).2).buckets b).length),
        (((upsert_node cfg (upsertMany cfg emptyPool ops) level n1).2).buckets b).get ⟨i, hi⟩ =
          (((upsert_node cfg (upsertMany cfg emptyPool ops) level n1).2).buckets b).get ⟨j, hj⟩ →
        i = j) := by
  subst heq
  have hnodup : ∀ b, ((upsertMany cfg emptyPool ops).buckets b).Nodup :=
    upsertMany_nodup cfg ops emptyPool emptyPool_nodup
  have hnodup' := upsert_node_nodup cfg (upsertMany cfg emptyPool ops) level n1 hnodup
  refine ⟨(upsert_node_idem cfg (upsertMany cfg emptyPool ops) level n1).1, hnodup', ?_⟩
  intro b i j hi hj hget
  have := ((hnodup' b).get_inj_iff).mp hget
  exact congrArg Fin.val this

/-- Claim C1 witness: a concrete run — upsert [1,2] then [3] from the empty
pool, then upserting [1,2] twice more returns the same address both times, and
all buckets stay duplicate-free. -/
theorem C1_hash_consing_uniqueness_witness :
    ((upsert_node ⟨fun ws => ws.foldl (· + ·) 0, fun _ => 0, fun _ => 4⟩
        ((upsert_node ⟨fun ws => ws.foldl (· + ·) 0, fun _ => 0, fun _ => 4⟩
          (upsertMany ⟨fun ws => ws.foldl (· + ·) 0, fun _ => 0, fun _ => 4⟩
            emptyPool [(0, [1, 2]), (0, [3])]) 0 [1, 2]).2) 0 [1, 2]).1 =
      (upsert_node ⟨fun ws => ws.foldl (· + ·) 0, fun _ => 0, fun _ => 4⟩
        (upsertMany ⟨fun ws => ws.foldl (· + ·) 0, fun _ => 0, fun _ => 4⟩
          emptyPool [(0, [1, 2]), (0, [3])]) 0 [1, 2]).1) ∧
    (∀ b, (((upsert_node ⟨fun ws => ws.foldl (· + ·) 0, fun _ => 0, fun _ => 4⟩
        (upsertMany ⟨fun ws => ws.foldl (· + ·) 0, fun _ => 0, fun _ => 4⟩
          emptyPool [(0, [1, 2]), (0, [3])]) 0 [1, 2]).2).buckets b).Nodup) :=
  ⟨(C1_hash_consing_uniqueness ⟨fun ws => ws.foldl (· + ·) 0, fun _ => 0, fun _ => 4⟩
      [(0, [1, 2]), (0, [3])] 0 [1, 2] [1, 2] rfl).1,
   (C1_hash_consing_uniqueness ⟨fun ws => ws.foldl (· + ·) 0, fun _ => 0, fun _ => 4⟩
      [(0, [1, 2]), (0, [3])] 0 [1, 2] [1, 2] rfl).2.1⟩

/-- Claim C5 counterexample: reading page 0 of a fresh store returns the null
pointer (`none`), not an all-zeros word slice, refuting "returns all zeros for
a page that has never been written" at this input. -/
theorem C5_read_page_counterexample :
    ReadPage (emptyStore 4) 0 = none ∧
      ¬ ReadPage (emptyStore 4) 0 = some (List.replicate 4 0) := by
  constructor
  · rfl
  · intro h
    simp [ReadPage, emptyStore] at h

/-- Claim C5 (amended): `ReadPage` never fails — it totally returns the stored
page state: the page's word buffer when the page is resident (in particular,
after a `WritePage` it returns the materialized buffer with the written words)
and the null pointer (`none`, not an all-zeros slice) when the page has never
been written. -/
theorem C5_read_page_amended :
    (∀ s id, ReadPage s id = s.pages id) ∧
    (∀ s id off data,
        ReadPage (WritePage s id off data) id =
          some (overwrite ((s.pages id).getD (List.replicate s.wordsPerPage 0))
            off data)) ∧
    (∀ w id, ReadPage (emptyStore w) id = none) := by
  refine ⟨fun s id => rfl, fun s id off data => ?_, fun w id => rfl⟩
  simp [ReadPage, WritePage, updPages]

/-- Claim C6 counterexample: with `keep_history = true` (an "every other
case" input) and an exhausted paged vector, `SetLeaf` allocates no fresh slot:
it returns its input pointer and the vector unchanged, refuting "in every
other case ... a fresh slot is allocated" at this input. -/
theorem C6_set_leaf_counterexample :
    (SetLeaf true ⟨1, 0, 0, []⟩ ⟨CPTag.kNull, 0⟩ [5]).1 = ⟨CPTag.kNull, 0⟩ ∧
    (SetLeaf true ⟨1, 0, 0, []⟩ ⟨CPTag.kNull, 0⟩ [5]).2 = ⟨1, 0, 0, []⟩ ∧
    ¬ ((SetLeaf true ⟨1, 0, 0, []⟩ ⟨CPTag.kNull, 0⟩ [5]).2.usedPages > 0 ∨
       (SetLeaf true ⟨1, 0, 0, []⟩ ⟨CPTag.kNull, 0⟩ [5]).2.words.length > 0) := by
  decide

/-- Claim C6 (amended): with `keep_history = false` and a `Leaf`-tagged
pointer whose slot capacity fits the chunk, `SetLeaf` writes the chunk into
the same slot and returns its input pointer; in every other case no stored
word is mutated in place, and whenever the append succeeds the chunk goes to a
fresh slot whose index lies past every previously stored word — but when the
append fails no slot is allocated at all and the input pointer is returned. -/
theorem C6_set_leaf_slot_reuse :
    (∀ v ptr chunk, ptr.tag = CPTag.kLeaf → chunk.length ≤ SPVRead v ptr.data →
        SetLeaf false v ptr chunk = (ptr, SPVWrite v (ptr.data + 1) chunk)) ∧
    (∀ kh v ptr chunk,
        v.words.length = v.usedPages * v.pageSizeWords →
        ¬ (kh = false ∧ ptr.tag = CPTag.kLeaf ∧ chunk.length ≤ SPVRead v ptr.data) →
        ∀ i, i < v.words.length →
          SPVRead (SetLeaf kh v ptr chunk).2 i = SPVRead v i) ∧
    (∀ v ptr chunk asz idx,
        v.words.length = v.usedPages * v.pageSizeWords →
        (Append v asz).1 = some idx →
        (setLeafAppend v ptr chunk asz).1 = ⟨CPTag.kLeaf, idx⟩ ∧
          idx = v.words.length) := by
  refine ⟨?_, ?_, ?_⟩
  · intro v ptr chunk htag hfit
    simp only [SetLeaf]
    rw [if_pos ⟨by trivial, htag⟩, if_pos hfit]
  · intro kh v ptr chunk hinv hnf i hi
    by_cases h1 : kh = false ∧ ptr.tag = CPTag.kLeaf
    · have h2 : ¬ chunk.length ≤ SPVRead v ptr.data := fun hc =>
        hnf ⟨h1.1, h1.2, hc⟩
      simp only [SetLeaf]
      rw [if_pos h1, if_neg h2]
      exact setLeafAppend_no_inplace v ptr chunk _ hinv i hi
    · simp only [SetLeaf]
      rw [if_neg h1]
      exact setLeafAppend_no_inplace v ptr chunk _ hinv i hi
  · intro v ptr chunk asz idx hinv hA
    exact setLeafAppend_fresh v ptr chunk asz idx hinv hA

/-- Claim C6 witness: a concrete fast-path reuse — keep_history off, a leaf
pointer with capacity 4 and a 2-word chunk: the chunk is written into the same
slot and the input pointer is returned; and a concrete fresh allocation:
appending a 2-word slot to an empty 1-page vector lands past every stored word. -/
theorem C6_set_leaf_slot_reuse_witness :
    (SetLeaf false ⟨4, 1, 1, [4, 0, 0, 0]⟩ ⟨CPTag.kLeaf, 0⟩ [7, 8] =
      (⟨CPTag.kLeaf, 0⟩, SPVWrite ⟨4, 1, 1, [4, 0, 0, 0]⟩ 1 [7, 8])) ∧
    ((setLeafAppend ⟨4, 1, 0, []⟩ ⟨CPTag.kNull, 0⟩ [7, 8] 2).1 =
        ⟨CPTag.kLeaf, 0⟩ ∧
      (0 : Nat) = ([] : List Nat).length) :=
  ⟨(C6_set_leaf_slot_reuse).1 ⟨4, 1, 1, [4, 0, 0, 0]⟩ ⟨CPTag.kLeaf, 0⟩ [7, 8]
      (by decide) (by decide),
   (C6_set_leaf_slot_reuse).2.2 ⟨4, 1, 0, []⟩ ⟨CPTag.kNull, 0⟩ [7, 8] 2 0
      (by decide) (by decide)⟩

/-- Claim C7: the safe paged vector's append fails with `none` exactly when
the page capacity is exhausted (no page left, or fewer pages left than the
request needs); and on any such append failure the enclosing `SetLeaf` returns
the pre-edit pointer with the vector unchanged — in particular a `SetLeaf`
that reaches the append path on a fully exhausted vector returns exactly its
input pointer and input state, so no partial leaf replacement is visible. -/
theorem C7_append_failure_rollback :
    (∀ v count, (Append v count).1 = none ↔
        (v.usedPages ≥ v.totalPages ∨
          v.usedPages + requiredPages v count > v.totalPages)) ∧
    (∀ v ptr chunk asz, (Append v asz).1 = none →
        setLeafAppend v ptr chunk asz = (ptr, v)) ∧
    (∀ kh v ptr chunk,
        v.usedPages ≥ v.totalPages →
        ¬ (kh = false ∧ ptr.tag = CPTag.kLeaf ∧
            chunk.length ≤ SPVRead v ptr.data) →
        SetLeaf kh v ptr chunk = (ptr, v)) := by
  refine ⟨?_, ?_, ?_⟩
  · intro v count
    rcases Append_none_or_some v count with ⟨h, hc⟩ | ⟨h, hc⟩
    · rw [h]
      simpa using hc
    · rw [h]
      constructor
      · intro hh
        exact absurd hh (by simp)
      · intro hh
        rcases hh with hh | hh
        · exact absurd hh hc.1
        · exact absurd hh hc.2
  · intro v ptr chunk asz hA
    exact setLeafAppend_fail v ptr chunk asz hA
  · intro kh v ptr chunk hfull hnf
    have hA : ∀ asz, (Append v asz).1 = none := by
      intro asz
      rcases Append_none_or_some v asz with ⟨h, _⟩ | ⟨h, hc⟩
      · rw [h]
      · exact absurd hfull hc.1
    by_cases h1 : kh = false ∧ ptr.tag = CPTag.kLeaf
    · have h2 : ¬ chunk.length ≤ SPVRead v ptr.data := fun hc =>
        hnf ⟨h1.1, h1.2, hc⟩
      simp only [SetLeaf]
      rw [if_pos h1, if_neg h2]
      exact setLeafAppend_fail v ptr chunk _ (hA _)
    · simp only [SetLeaf]
      rw [if_neg h1]
      exact setLeafAppend_fail v ptr chunk _ (hA _)

/-- Claim C7 witness: a concrete exhausted vector (0 pages): the append of 2
words fails, and a `SetLeaf` with keep_history on returns its input pointer
and input vector unchanged. -/
theorem C7_append_failure_rollback_witness :
    ((Append ⟨1, 0, 0, []⟩ 2).1 = none ↔
      ((0 : Nat) ≥ 0 ∨ 0 + requiredPages ⟨1, 0, 0, []⟩ 2 > 0)) ∧
    SetLeaf true ⟨1, 0, 0, []⟩ ⟨CPTag.kColor, 3⟩ [7, 8] =
      (⟨CPTag.kColor, 3⟩, ⟨1, 0, 0, []⟩) :=
  ⟨(C7_append_failure_rollback).1 ⟨1, 0, 0, []⟩ 2,
   (C7_append_failure_rollback).2.2 true ⟨1, 0, 0, []⟩ ⟨CPTag.kColor, 3⟩ [7, 8]
      (by decide) (by decide)⟩

/-! ## Lemmas: geometry tree basics -/

theorem side_pos (d : Nat) : 0 < side d := by
  unfold side
  positivity

theorem side_succ (d : Nat) : side (d + 1) = 2 * side d := by
  unfold side
  ring

theorem side_eq_pow (d : Nat) : side d = 2 ^ (d + 2) := by
  unfold side
  ring

theorem child_null (i : Nat) : child .null i = .null := rfl

theorem child_filled (i : Nat) : child .filled i = .filled := rfl

theorem child_mkNode (f : Nat → NodeTree) (i : Nat) (hi : i < 8) :
    child (mkNode f) i = f i := by
  interval_cases i <;> rfl

theorem voxelAt_null (d : Nat) (p : V3) : voxelAt d .null p = false := by
  cases d <;> rfl

theorem voxelAt_filled (d : Nat) (p : V3) : voxelAt d .filled p = true := by
  cases d <;> rfl

theorem wfb_null (d : Nat) : WFB d .null = true := by cases d <;> rfl

theorem wfb_filled (d : Nat) : WFB d .filled = true := by cases d <;> rfl

theorem canonb_null (d : Nat) : CanonB d .null = true := by cases d <;> rfl

theorem canonb_filled (d : Nat) : CanonB d .filled = true := by cases d <;> rfl

theorem div_le_one_of_lt_twice {a s : Nat} (hs : 0 < s) (h : a < 2 * s) :
    a / s ≤ 1 := by
  have := (Nat.div_lt_iff_lt_mul hs).mpr (by omega : a < 2 * s)
  omega

theorem octantOf_lt {d : Nat} {p : V3} (hp : inCube (d + 1) p) :
    octantOf d p < 8 := by
  obtain ⟨hx, hy, hz⟩ := hp
  rw [side_succ] at hx hy hz
  have hs := side_pos d
  have h1 := div_le_one_of_lt_twice hs hx
  have h2 := div_le_one_of_lt_twice hs hy
  have h3 := div_le_one_of_lt_twice hs hz
  unfold octantOf
  omega

theorem residual_inCube {d : Nat} {p : V3} (hp : inCube (d + 1) p) :
    inCube d (residual d p) := by
  have hs := side_pos d
  exact ⟨Nat.mod_lt _ hs, Nat.mod_lt _ hs, Nat.mod_lt _ hs⟩

theorem comp_glob_child (m s a r q : Nat) (h : s * a + r = q) :
    m * (2 * s) + q = (2 * m + a) * s + r := by
  rw [← h]
  ring

theorem oct_decomp {a b c : Nat} (ha : a ≤ 1) (hb : b ≤ 1) (hc : c ≤ 1) :
    (a + 2 * b + 4 * c) % 2 = a ∧ (a + 2 * b + 4 * c) / 2 % 2 = b ∧
      (a + 2 * b + 4 * c) / 4 = c := by
  interval_cases a <;> interval_cases b <;> interval_cases c <;> decide

theorem glob_child (d : Nat) (pos p : V3) (hp : inCube (d + 1) p) :
    glob (d + 1) pos p = glob d (childPos pos (octantOf d p)) (residual d p) := by
  obtain ⟨hx, hy, hz⟩ := hp
  rw [side_succ] at hx hy hz
  have hs := side_pos d
  have h1 := div_le_one_of_lt_twice hs hx
  have h2 := div_le_one_of_lt_twice hs hy
  have h3 := div_le_one_of_lt_twice hs hz
  obtain ⟨ho1, ho2, ho3⟩ := oct_decomp h1 h2 h3
  show V3.mk _ _ _ = V3.mk _ _ _
  simp only [glob, childPos, residual, octantOf, V3.mk.injEq, ho1, ho2, ho3,
    side_succ]
  exact ⟨comp_glob_child _ _ _ _ _ (Nat.div_add_mod p.x (side d)),
         comp_glob_child _ _ _ _ _ (Nat.div_add_mod p.y (side d)),
         comp_glob_child _ _ _ _ _ (Nat.div_add_mod p.z (side d))⟩

theorem bitIndex_lt {p : V3} (hp : inCube 0 p) : bitIndex p < 64 := by
  obtain ⟨hx, hy, hz⟩ := hp
  unfold side at hx hy hz
  unfold bitIndex
  omega

theorem posOfBit_bitIndex {p : V3} (hp : inCube 0 p) : posOfBit (bitIndex p) = p := by
  obtain ⟨hx, hy, hz⟩ := hp
  unfold side at hx hy hz
  cases p with
  | mk x y z =>
    simp only [posOfBit, bitIndex, V3.mk.injEq]
    simp only at hx hy hz
    refine ⟨?_, ?_, ?_⟩ <;> omega

theorem bitIndex_posOfBit {i : Nat} (hi : i < 64) : bitIndex (posOfBit i) = i := by
  simp only [posOfBit, bitIndex]
  omega

theorem posOfBit_inCube {i : Nat} (hi : i < 64) : inCube 0 (posOfBit i) := by
  refine ⟨?_, ?_, ?_⟩ <;> (simp only [posOfBit, side]; omega)

theorem getD_replicate_lt {b : Bool} {n i : Nat} (h : i < n) :
    (List.replicate n b).getD i false = b := by
  rw [List.getD_eq_getElem?_getD, List.getElem?_replicate_of_lt h]
  rfl

theorem getD_ofFn_lt {n : Nat} {f : Fin n → Bool} {i : Nat} (h : i < n) :
    (List.ofFn f).getD i false = f ⟨i, h⟩ := by
  rw [List.getD_eq_getElem?_getD, List.getElem?_ofFn]
  simp [List.ofFnNthVal, h]

theorem getD_eq_getElem_of_lt {l : List Bool} {i : Nat} (h : i < l.length) :
    l.getD i false = l[i] := by
  rw [List.getD_eq_getElem?_getD, List.getElem?_eq_getElem h]
  rfl

/-! ## Lemmas: semantics of normalization and the edit dispatch -/

theorem decodeLeaf_getD {t : NodeTree} (hwf : WFB 0 t = true) {p : V3}
    (hp : inCube 0 p) :
    (decodeLeaf t).getD (bitIndex p) false = voxelAt 0 t p := by
  cases t with
  | null => simp only [decodeLeaf]; rw [getD_replicate_lt (bitIndex_lt hp)]; rfl
  | filled => simp only [decodeLeaf]; rw [getD_replicate_lt (bitIndex_lt hp)]; rfl
  | leaf bits => rfl
  | node c0 c1 c2 c3 c4 c5 c6 c7 => simp [WFB] at hwf

theorem normalizeLeaf_sem {bs : List Bool} (p : V3) (hp : inCube 0 p) :
    voxelAt 0 (normalizeLeaf bs) p = bs.getD (bitIndex p) false := by
  unfold normalizeLeaf
  split_ifs with h1 h2
  · rw [h1, getD_replicate_lt (bitIndex_lt hp)]; rfl
  · rw [h2, getD_replicate_lt (bitIndex_lt hp)]; rfl
  · rfl

theorem voxelAt_child {d : Nat} {t : NodeTree} (hwf : WFB (d + 1) t = true)
    (p : V3) :
    voxelAt (d + 1) t p = voxelAt d (child t (octantOf d p)) (residual d p) := by
  cases t with
  | null => rw [voxelAt_null, child_null, voxelAt_null]
  | filled => rw [voxelAt_filled, child_filled, voxelAt_filled]
  | leaf bits => simp [WFB] at hwf
  | node c0 c1 c2 c3 c4 c5 c6 c7 => rfl

theorem normalizeNode_sem {d : Nat} (f : Nat → NodeTree) {p : V3}
    (hp : inCube (d + 1) p) :
    voxelAt (d + 1) (normalizeNode f) p =
      voxelAt d (f (octantOf d p)) (residual d p) := by
  have ho := octantOf_lt hp
  unfold normalizeNode
  split_ifs with h1 h2
  · obtain ⟨e0, e1, e2, e3, e4, e5, e6, e7⟩ := h1
    rw [voxelAt_null]
    have : f (octantOf d p) = .null := by interval_cases h : octantOf d p <;> assumption
    rw [this, voxelAt_null]
  · obtain ⟨e0, e1, e2, e3, e4, e5, e6, e7⟩ := h2
    rw [voxelAt_filled]
    have : f (octantOf d p) = .filled := by interval_cases h : octantOf d p <;> assumption
    rw [this, voxelAt_filled]
  · show voxelAt d (child (mkNode f) (octantOf d p)) (residual d p) = _
    rw [child_mkNode f _ ho]

theorem editT_eq_na {E : GEditor} {d : Nat} {pos : V3} {t : NodeTree}
    (h : E.editNode d pos t = .kNotAffected) : editT E d pos t = t := by
  cases d <;> simp only [editT, h]

theorem editT_eq_clear {E : GEditor} {d : Nat} {pos : V3} {t : NodeTree}
    (h : E.editNode d pos t = .kClear) : editT E d pos t = .null := by
  cases d <;> simp only [editT, h]

theorem normalizeLeaf_allTrue :
    normalizeLeaf (List.replicate 64 true) = NodeTree.filled := by decide

theorem editT_eq_fill {E : GEditor} {d : Nat} {pos : V3} {t : NodeTree}
    (h : E.editNode d pos t = .kFill) : editT E d pos t = .filled := by
  cases d with
  | zero => simp only [editT, h]; exact normalizeLeaf_allTrue
  | succ d => simp only [editT, h]

theorem editT_proceed_zero {E : GEditor} {pos : V3} {t : NodeTree}
    (h : E.editNode 0 pos t = .kProceed) :
    editT E 0 pos t = normalizeLeaf (List.ofFn fun i : Fin 64 =>
      E.editVoxel (glob 0 pos (posOfBit i.val)) ((decodeLeaf t).getD i.val false)) := by
  simp only [editT, h]

theorem editT_proceed_succ {E : GEditor} {d : Nat} {pos : V3} {t : NodeTree}
    (h : E.editNode (d + 1) pos t = .kProceed) :
    editT E (d + 1) pos t =
      normalizeNode fun i => editT E d (childPos pos i) (child t i) := by
  simp only [editT, h]

theorem wfb_child {d : Nat} {t : NodeTree} (hwf : WFB (d + 1) t = true)
    (i : Nat) : WFB d (child t i) = true := by
  cases t with
  | null => rw [child_null]; exact wfb_null d
  | filled => rw [child_filled]; exact wfb_filled d
  | leaf bits => simp [WFB] at hwf
  | node c0 c1 c2 c3 c4 c5 c6 c7 =>
    simp only [WFB, Bool.and_eq_true] at hwf
    obtain ⟨⟨⟨⟨⟨⟨⟨h0, h1⟩, h2⟩, h3⟩, h4⟩, h5⟩, h6⟩, h7⟩ := hwf
    match i with
    | 0 => exact h0
    | 1 => exact h1
    | 2 => exact h2
    | 3 => exact h3
    | 4 => exact h4
    | 5 => exact h5
    | 6 => exact h6
    | 7 => exact h7
    | n + 8 => exact wfb_null d

/-! ## Editor soundness and the edit-semantics lemma

An editor's `EditNode` verdicts must be consistent with its `EditVoxel`:
`Unaffected` means no voxel of the subtree changes, `Clear`/`Fill` mean every
voxel of the subtree becomes 0/1.  Under these conditions the recursive
rewrite computes exactly the per-voxel edit. -/

theorem editT_sem (E : GEditor) (hNA : SoundNA E) (hCl : SoundCl E)
    (hFi : SoundFi E) :
    ∀ d pos t, WFB d t = true → ∀ p, inCube d p →
      voxelAt d (editT E d pos t) p =
        E.editVoxel (glob d pos p) (voxelAt d t p) := by
  intro d
  induction d with
  | zero =>
    intro pos t hwf p hp
    cases he : E.editNode 0 pos t with
    | kNotAffected => rw [editT_eq_na he, hNA 0 pos t he p hp]
    | kClear => rw [editT_eq_clear he, voxelAt_null, hCl 0 pos t he p hp]
    | kFill => rw [editT_eq_fill he, voxelAt_filled, hFi 0 pos t he p hp]
    | kProceed =>
      rw [editT_proceed_zero he, normalizeLeaf_sem p hp,
        getD_ofFn_lt (bitIndex_lt hp)]
      rw [posOfBit_bitIndex hp, decodeLeaf_getD hwf hp]
  | succ d ih =>
    intro pos t hwf p hp
    cases he : E.editNode (d + 1) pos t with
    | kNotAffected => rw [editT_eq_na he, hNA _ pos t he p hp]
    | kClear => rw [editT_eq_clear he, voxelAt_null, hCl _ pos t he p hp]
    | kFill => rw [editT_eq_fill he, voxelAt_filled, hFi _ pos t he p hp]
    | kProceed =>
      rw [editT_proceed_succ he, normalizeNode_sem _ hp,
        ih (childPos pos (octantOf d p)) (child t (octantOf d p))
          (wfb_child hwf _) (residual d p) (residual_inCube hp),
        ← glob_child d pos p hp, voxelAt_child hwf p]

/-! ## Canonical-form preservation -/

theorem canon_wfb : ∀ (d : Nat) (t : NodeTree), CanonB d t = true → WFB d t = true := by
  intro d
  induction d with
  | zero =>
    intro t hc
    cases t with
    | null => rfl
    | filled => rfl
    | leaf bits =>
      simp only [CanonB, decide_eq_true_eq] at hc
      simp [WFB, hc.1]
    | node c0 c1 c2 c3 c4 c5 c6 c7 => simp [CanonB] at hc
  | succ d ih =>
    intro t hc
    cases t with
    | null => rfl
    | filled => rfl
    | leaf bits => simp [CanonB] at hc
    | node c0 c1 c2 c3 c4 c5 c6 c7 =>
      simp only [CanonB, Bool.and_eq_true] at hc
      obtain ⟨⟨_, _⟩, ⟨⟨⟨⟨⟨⟨⟨h0, h1⟩, h2⟩, h3⟩, h4⟩, h5⟩, h6⟩, h7⟩⟩ := hc
      simp only [WFB, Bool.and_eq_true]
      exact ⟨⟨⟨⟨⟨⟨⟨ih _ h0, ih _ h1⟩, ih _ h2⟩, ih _ h3⟩, ih _ h4⟩, ih _ h5⟩,
        ih _ h6⟩, ih _ h7⟩

theorem canon_child {d : Nat} {t : NodeTree} (hc : CanonB (d + 1) t = true)
    (i : Nat) : CanonB d (child t i) = true := by
  cases t with
  | null => rw [child_null]; exact canonb_null d
  | filled => rw [child_filled]; exact canonb_filled d
  | leaf bits => simp [CanonB] at hc
  | node c0 c1 c2 c3 c4 c5 c6 c7 =>
    simp only [CanonB, Bool.and_eq_true] at hc
    obtain ⟨⟨_, _⟩, ⟨⟨⟨⟨⟨⟨⟨h0, h1⟩, h2⟩, h3⟩, h4⟩, h5⟩, h6⟩, h7⟩⟩ := hc
    match i with
    | 0 => exact h0
    | 1 => exact h1
    | 2 => exact h2
    | 3 => exact h3
    | 4 => exact h4
    | 5 => exact h5
    | 6 => exact h6
    | 7 => exact h7
    | n + 8 => exact canonb_null d

theorem canon_normalizeLeaf {bs : List Bool} (hlen : bs.length = 64) :
    CanonB 0 (normalizeLeaf bs) = true := by
  unfold normalizeLeaf
  split_ifs with h1 h2
  · rfl
  · rfl
  · simp only [CanonB, decide_eq_true_eq]
    exact ⟨hlen, h1, h2⟩

theorem canon_normalizeNode {d : Nat} {f : Nat → NodeTree}
    (hf : ∀ i, i < 8 → CanonB d (f i) = true) :
    CanonB (d + 1) (normalizeNode f) = true := by
  unfold normalizeNode
  split_ifs with h1 h2
  · rfl
  · rfl
  · simp only [mkNode, CanonB, Bool.and_eq_true, decide_eq_true_eq]
    refine ⟨⟨h1, h2⟩, ?_⟩
    exact ⟨⟨⟨⟨⟨⟨⟨hf 0 (by omega), hf 1 (by omega)⟩, hf 2 (by omega)⟩,
      hf 3 (by omega)⟩, hf 4 (by omega)⟩, hf 5 (by omega)⟩, hf 6 (by omega)⟩,
      hf 7 (by omega)⟩

theorem editT_canon (E : GEditor) :
    ∀ d pos t, CanonB d t = true → CanonB d (editT E d pos t) = true := by
  intro d
  induction d with
  | zero =>
    intro pos t hc
    cases he : E.editNode 0 pos t with
    | kNotAffected => rw [editT_eq_na he]; exact hc
    | kClear => rw [editT_eq_clear he]; rfl
    | kFill => rw [editT_eq_fill he]; rfl
    | kProceed =>
      rw [editT_proceed_zero he]
      exact canon_normalizeLeaf (by simp)
  | succ d ih =>
    intro pos t hc
    cases he : E.editNode (d + 1) pos t with
    | kNotAffected => rw [editT_eq_na he]; exact hc
    | kClear => rw [editT_eq_clear he]; rfl
    | kFill => rw [editT_eq_fill he]; rfl
    | kProceed =>
      rw [editT_proceed_succ he]
      exact canon_normalizeNode fun i _ => ih (childPos pos i) (child t i)
        (canon_child hc i)

/-! ## Canonical trees are determined by their voxels

Under hash-consing with normalization, two pointers are equal iff their
subtrees read back identically; this section proves the representation-side
half: canonical subtrees with the same voxel readback are equal. -/

theorem leaf_ext {bs1 bs2 : List Bool} (h1 : bs1.length = 64)
    (h2 : bs2.length = 64)
    (h : ∀ i, i < 64 → bs1.getD i false = bs2.getD i false) : bs1 = bs2 := by
  apply List.ext_getElem (by omega)
  intro i hi1 hi2
  have hh := h i (by omega)
  rwa [getD_eq_getElem_of_lt hi1, getD_eq_getElem_of_lt hi2] at hh

theorem leaf_all_const {bs : List Bool} (b : Bool) (hlen : bs.length = 64)
    (h : ∀ i, i < 64 → bs.getD i false = b) : bs = List.replicate 64 b :=
  leaf_ext hlen (by simp) fun i hi => by rw [h i hi, getD_replicate_lt hi]

theorem origin_inCube (d : Nat) : inCube d ⟨0, 0, 0⟩ :=
  ⟨side_pos d, side_pos d, side_pos d⟩

theorem embedPos_inCube {d i : Nat} {p : V3} (hi : i < 8) (hp : inCube d p) :
    inCube (d + 1) (embedPos d i p) := by
  obtain ⟨hx, hy, hz⟩ := hp
  have e1 : i % 2 * side d ≤ side d := by
    calc i % 2 * side d ≤ 1 * side d := Nat.mul_le_mul_right _ (by omega)
    _ = side d := by ring
  have e2 : i / 2 % 2 * side d ≤ side d := by
    calc i / 2 % 2 * side d ≤ 1 * side d := Nat.mul_le_mul_right _ (by omega)
    _ = side d := by ring
  have e3 : i / 4 * side d ≤ side d := by
    calc i / 4 * side d ≤ 1 * side d := Nat.mul_le_mul_right _ (by omega)
    _ = side d := by ring
  refine ⟨?_, ?_, ?_⟩ <;> (simp only [embedPos, side_succ]; omega)

theorem octantOf_embed {d i : Nat} {p : V3} (hi : i < 8) (hp : inCube d p) :
    octantOf d (embedPos d i p) = i := by
  obtain ⟨hx, hy, hz⟩ := hp
  have hs := side_pos d
  have d1 : (i % 2 * side d + p.x) / side d = i % 2 := by
    rw [Nat.mul_comm, Nat.mul_add_div hs, Nat.div_eq_of_lt hx]
    omega
  have d2 : (i / 2 % 2 * side d + p.y) / side d = i / 2 % 2 := by
    rw [Nat.mul_comm, Nat.mul_add_div hs, Nat.div_eq_of_lt hy]
    omega
  have d3 : (i / 4 * side d + p.z) / side d = i / 4 := by
    rw [Nat.mul_comm, Nat.mul_add_div hs, Nat.div_eq_of_lt hz]
    omega
  simp only [octantOf, embedPos, d1, d2, d3]
  omega

theorem residual_embed {d i : Nat} {p : V3} (hp : inCube d p) :
    residual d (embedPos d i p) = p := by
  obtain ⟨hx, hy, hz⟩ := hp
  cases p with
  | mk x y z =>
    simp only [residual, embedPos, V3.mk.injEq]
    simp only at hx hy hz
    refine ⟨?_, ?_, ?_⟩ <;>
      (rw [Nat.mul_comm, Nat.mul_add_mod]; exact Nat.mod_eq_of_lt (by assumption))

theorem child_sem_of_sem {d : Nat} {t1 t2 : NodeTree}
    (w1 : WFB (d + 1) t1 = true) (w2 : WFB (d + 1) t2 = true)
    (hsem : ∀ p, inCube (d + 1) p → voxelAt (d + 1) t1 p = voxelAt (d + 1) t2 p)
    (i : Nat) (hi : i < 8) :
    ∀ p', inCube d p' →
      voxelAt d (child t1 i) p' = voxelAt d (child t2 i) p' := by
  intro p' hp'
  have h := hsem (embedPos d i p') (embedPos_inCube hi hp')
  rwa [voxelAt_child w1, voxelAt_child w2, octantOf_embed hi hp',
    residual_embed hp'] at h

theorem canon_sem_false_zero {t : NodeTree} (hc : CanonB 0 t = true)
    (hsem : ∀ p, inCube 0 p → voxelAt 0 t p = false) : t = NodeTree.null := by
  cases t with
  | null => rfl
  | filled =>
    have h := hsem ⟨0, 0, 0⟩ (origin_inCube 0)
    rw [voxelAt_filled] at h
    exact absurd h (by simp)
  | leaf bs =>
    exfalso
    simp only [CanonB, decide_eq_true_eq] at hc
    obtain ⟨hlen, hne, _⟩ := hc
    apply hne
    apply leaf_all_const false hlen
    intro i hi
    have h := hsem (posOfBit i) (posOfBit_inCube hi)
    rwa [show voxelAt 0 (NodeTree.leaf bs) (posOfBit i) =
      bs.getD (bitIndex (posOfBit i)) false from rfl, bitIndex_posOfBit hi] at h
  | node c0 c1 c2 c3 c4 c5 c6 c7 => simp [CanonB] at hc

theorem canon_sem_true_zero {t : NodeTree} (hc : CanonB 0 t = true)
    (hsem : ∀ p, inCube 0 p → voxelAt 0 t p = true) : t = NodeTree.filled := by
  cases t with
  | null =>
    have h := hsem ⟨0, 0, 0⟩ (origin_inCube 0)
    rw [voxelAt_null] at h
    exact absurd h (by simp)
  | filled => rfl
  | leaf bs =>
    exfalso
    simp only [CanonB, decide_eq_true_eq] at hc
    obtain ⟨hlen, _, hne⟩ := hc
    apply hne
    apply leaf_all_const true hlen
    intro i hi
    have h := hsem (posOfBit i) (posOfBit_inCube hi)
    rwa [show voxelAt 0 (NodeTree.leaf bs) (posOfBit i) =
      bs.getD (bitIndex (posOfBit i)) false from rfl, bitIndex_posOfBit hi] at h
  | node c0 c1 c2 c3 c4 c5 c6 c7 => simp [CanonB] at hc

theorem canon_sem_false_succ {d : Nat}
    (ih : ∀ t1 t2, CanonB d t1 = true → CanonB d t2 = true →
      (∀ p, inCube d p → voxelAt d t1 p = voxelAt d t2 p) → t1 = t2)
    {t : NodeTree} (hc : CanonB (d + 1) t = true)
    (hsem : ∀ p, inCube (d + 1) p → voxelAt (d + 1) t p = false) :
    t = NodeTree.null := by
  cases t with
  | null => rfl
  | filled =>
    have h := hsem ⟨0, 0, 0⟩ (origin_inCube (d + 1))
    rw [voxelAt_filled] at h
    exact absurd h (by simp)
  | leaf bs => simp [CanonB] at hc
  | node b0 b1 b2 b3 b4 b5 b6 b7 =>
    exfalso
    have hch : ∀ i, i < 8 →
        child (NodeTree.node b0 b1 b2 b3 b4 b5 b6 b7) i = NodeTree.null := by
      intro i hi
      apply ih _ _ (canon_child hc i) (canonb_null d)
      intro p' hp'
      rw [voxelAt_null]
      have h := hsem (embedPos d i p') (embedPos_inCube hi hp')
      rwa [voxelAt_child (canon_wfb _ _ hc), octantOf_embed hi hp',
        residual_embed hp'] at h
    have e0 : b0 = NodeTree.null := hch 0 (by omega)
    have e1 : b1 = NodeTree.null := hch 1 (by omega)
    have e2 : b2 = NodeTree.null := hch 2 (by omega)
    have e3 : b3 = NodeTree.null := hch 3 (by omega)
    have e4 : b4 = NodeTree.null := hch 4 (by omega)
    have e5 : b5 = NodeTree.null := hch 5 (by omega)
    have e6 : b6 = NodeTree.null := hch 6 (by omega)
    have e7 : b7 = NodeTree.null := hch 7 (by omega)
    simp only [CanonB, Bool.and_eq_true, decide_eq_true_eq] at hc
    exact hc.1.1 ⟨e0, e1, e2, e3, e4, e5, e6, e7⟩

theorem canon_sem_true_succ {d : Nat}
    (ih : ∀ t1 t2, CanonB d t1 = true → CanonB d t2 = true →
      (∀ p, inCube d p → voxelAt d t1 p = voxelAt d t2 p) → t1 = t2)
    {t : NodeTree} (hc : CanonB (d + 1) t = true)
    (hsem : ∀ p, inCube (d + 1) p → voxelAt (d + 1) t p = true) :
    t = NodeTree.filled := by
  cases t with
  | null =>
    have h := hsem ⟨0, 0, 0⟩ (origin_inCube (d + 1))
    rw [voxelAt_null] at h
    exact absurd h (by simp)
  | filled => rfl
  | leaf bs => simp [CanonB] at hc
  | node b0 b1 b2 b3 b4 b5 b6 b7 =>
    exfalso
    have hch : ∀ i, i < 8 →
        child (NodeTree.node b0 b1 b2 b3 b4 b5 b6 b7) i = NodeTree.filled := by
      intro i hi
      apply ih _ _ (canon_child hc i) (canonb_filled d)
      intro p' hp'
      rw [voxelAt_filled]
      have h := hsem (embedPos d i p') (embedPos_inCube hi hp')
      rwa [voxelAt_child (canon_wfb _ _ hc), octantOf_embed hi hp',
        residual_embed hp'] at h
    have e0 : b0 = NodeTree.filled := hch 0 (by omega)
    have e1 : b1 = NodeTree.filled := hch 1 (by omega)
    have e2 : b2 = NodeTree.filled := hch 2 (by omega)
    have e3 : b3 = NodeTree.filled := hch 3 (by omega)
    have e4 : b4 = NodeTree.filled := hch 4 (by omega)
    have e5 : b5 = NodeTree.filled := hch 5 (by omega)
    have e6 : b6 = NodeTree.filled := hch 6 (by omega)
    have e7 : b7 = NodeTree.filled := hch 7 (by omega)
    simp only [CanonB, Bool.and_eq_true, decide_eq_true_eq] at hc
    exact hc.1.2 ⟨e0, e1, e2, e3, e4, e5, e6, e7⟩

theorem canon_ext : ∀ (d : Nat) (t1 t2 : NodeTree), CanonB d t1 = true →
    CanonB d t2 = true →
    (∀ p, inCube d p → voxelAt d t1 p = voxelAt d t2 p) → t1 = t2 := by
  intro d
  induction d with
  | zero =>
    intro t1 t2 hc1 hc2 hsem
    cases t1 with
    | null =>
      exact (canon_sem_false_zero hc2 fun p hp => by
        rw [← hsem p hp, voxelAt_null]).symm
    | filled =>
      exact (canon_sem_true_zero hc2 fun p hp => by
        rw [← hsem p hp, voxelAt_filled]).symm
    | leaf bs1 =>
      cases t2 with
      | null =>
        exact canon_sem_false_zero hc1 fun p hp => by
          rw [hsem p hp, voxelAt_null]
      | filled =>
        exact canon_sem_true_zero hc1 fun p hp => by
          rw [hsem p hp, voxelAt_filled]
      | leaf bs2 =>
        simp only [CanonB, decide_eq_true_eq] at hc1 hc2
        have heq : bs1 = bs2 := by
          apply leaf_ext hc1.1 hc2.1
          intro i hi
          have h := hsem (posOfBit i) (posOfBit_inCube hi)
          rwa [show voxelAt 0 (NodeTree.leaf bs1) (posOfBit i) =
              bs1.getD (bitIndex (posOfBit i)) false from rfl,
            show voxelAt 0 (NodeTree.leaf bs2) (posOfBit i) =
              bs2.getD (bitIndex (posOfBit i)) false from rfl,
            bitIndex_posOfBit hi] at h
        rw [heq]
      | node c0 c1 c2 c3 c4 c5 c6 c7 => simp [CanonB] at hc2
    | node c0 c1 c2 c3 c4 c5 c6 c7 => simp [CanonB] at hc1
  | succ d ih =>
    intro t1 t2 hc1 hc2 hsem
    cases t1 with
    | null =>
      exact (canon_sem_false_succ ih hc2 fun p hp => by
        rw [← hsem p hp, voxelAt_null]).symm
    | filled =>
      exact (canon_sem_true_succ ih hc2 fun p hp => by
        rw [← hsem p hp, voxelAt_filled]).symm
    | leaf bs => simp [CanonB] at hc1
    | node a0 a1 a2 a3 a4 a5 a6 a7 =>
      cases t2 with
      | null =>
        exact canon_sem_false_succ ih hc1 fun p hp => by
          rw [hsem p hp, voxelAt_null]
      | filled =>
        exact canon_sem_true_succ ih hc1 fun p hp => by
          rw [hsem p hp, voxelAt_filled]
      | leaf bs => simp [CanonB] at hc2
      | node b0 b1 b2 b3 b4 b5 b6 b7 =>
        have w1 := canon_wfb _ _ hc1
        have w2 := canon_wfb _ _ hc2
        have key : ∀ i, i < 8 →
            child (NodeTree.node a0 a1 a2 a3 a4 a5 a6 a7) i =
              child (NodeTree.node b0 b1 b2 b3 b4 b5 b6 b7) i := fun i hi =>
          ih _ _ (canon_child hc1 i) (canon_child hc2 i)
            (child_sem_of_sem w1 w2 hsem i hi)
        have e0 : a0 = b0 := key 0 (by omega)
        have e1 : a1 = b1 := key 1 (by omega)
        have e2 : a2 = b2 := key 2 (by omega)
        have e3 : a3 = b3 := key 3 (by omega)
        have e4 : a4 = b4 := key 4 (by omega)
        have e5 : a5 = b5 := key 5 (by omega)
        have e6 : a6 = b6 := key 6 (by omega)
        have e7 : a7 = b7 := key 7 (by omega)
        rw [e0, e1, e2, e3, e4, e5, e6, e7]

/-! ## Soundness of the AABB editor -/

theorem aabbGEditor_editNode (mn mx : V3) (col : Nat) (d : Nat) (pos : V3)
    (t : NodeTree) :
    (aabbGEditor mn mx col).editNode d pos t = aabbEditNode mn mx d pos := rfl

theorem aabbGEditor_editVoxel (mn mx : V3) (col : Nat) (q : V3) (v : Bool) :
    (aabbGEditor mn mx col).editVoxel q v = (v || inAABB mn mx q) := rfl

theorem aabbEditNode_na {mn mx : V3} {d : Nat} {pos : V3}
    (h : aabbEditNode mn mx d pos = .kNotAffected) :
    (nodeUB d pos).x ≤ mn.x ∨ (nodeUB d pos).y ≤ mn.y ∨ (nodeUB d pos).z ≤ mn.z ∨
      mx.x ≤ (nodeLB d pos).x ∨ mx.y ≤ (nodeLB d pos).y ∨ mx.z ≤ (nodeLB d pos).z := by
  unfold aabbEditNode at h
  split_ifs at h <;> first | assumption | simp at h

theorem aabbEditNode_fill {mn mx : V3} {d : Nat} {pos : V3}
    (h : aabbEditNode mn mx d pos = .kFill) :
    mn.x ≤ (nodeLB d pos).x ∧ mn.y ≤ (nodeLB d pos).y ∧ mn.z ≤ (nodeLB d pos).z ∧
      (nodeUB d pos).x ≤ mx.x ∧ (nodeUB d pos).y ≤ mx.y ∧ (nodeUB d pos).z ≤ mx.z := by
  unfold aabbEditNode at h
  split_ifs at h <;> first | assumption | simp at h

theorem aabbEditNode_ne_clear (mn mx : V3) (d : Nat) (pos : V3) :
    aabbEditNode mn mx d pos ≠ .kClear := by
  unfold aabbEditNode
  split_ifs <;> simp

theorem aabb_na_not_in {mn mx : V3} {d : Nat} {pos : V3}
    (h : aabbEditNode mn mx d pos = .kNotAffected)
    (p : V3) (hp : inCube d p) : inAABB mn mx (glob d pos p) = false := by
  have hd := aabbEditNode_na h
  obtain ⟨hx, hy, hz⟩ := hp
  simp only [inAABB, decide_eq_false_iff_not]
  rintro ⟨c1, c2, c3, c4, c5, c6⟩
  simp only [nodeLB, nodeUB] at hd
  simp only [glob] at c1 c2 c3 c4 c5 c6
  rcases hd with h' | h' | h' | h' | h' | h' <;> omega

theorem aabb_fill_in {mn mx : V3} {d : Nat} {pos : V3}
    (h : aabbEditNode mn mx d pos = .kFill)
    (p : V3) (hp : inCube d p) : inAABB mn mx (glob d pos p) = true := by
  have hd := aabbEditNode_fill h
  obtain ⟨hx, hy, hz⟩ := hp
  simp only [nodeLB, nodeUB] at hd
  simp only [inAABB, decide_eq_true_eq, glob]
  refine ⟨?_, ?_, ?_, ?_, ?_, ?_⟩ <;> omega

theorem aabb_soundNA (mn mx : V3) (col : Nat) :
    SoundNA (aabbGEditor mn mx col) := by
  intro d pos t h p hp b
  rw [aabbGEditor_editVoxel, aabb_na_not_in h p hp]
  exact Bool.or_false b

theorem aabb_soundCl (mn mx : V3) (col : Nat) :
    SoundCl (aabbGEditor mn mx col) := by
  intro d pos t h p hp b
  exact absurd h (aabbEditNode_ne_clear mn mx d pos)

theorem aabb_soundFi (mn mx : V3) (col : Nat) :
    SoundFi (aabbGEditor mn mx col) := by
  intro d pos t h p hp b
  rw [aabbGEditor_editVoxel, aabb_fill_in h p hp]
  exact Bool.or_true b

/-! ## Soundness of the sphere editor -/

theorem sphereEditNode_clear_bound {mode : EditMode} {center : V3} {r2 : Nat}
    {d : Nat} {pos : V3} (h : sphereEditNode mode center r2 d pos = .kClear) :
    sphereMaxN2 center (nodeLB d pos) (nodeUB d pos) ≤ (r2 : Int) := by
  unfold sphereEditNode at h
  split_ifs at h <;> first | assumption | simp at h

theorem sphereEditNode_fill_bound {mode : EditMode} {center : V3} {r2 : Nat}
    {d : Nat} {pos : V3} (h : sphereEditNode mode center r2 d pos = .kFill) :
    sphereMaxN2 center (nodeLB d pos) (nodeUB d pos) ≤ (r2 : Int) := by
  unfold sphereEditNode at h
  split_ifs at h <;> first | assumption | simp at h

theorem sphereEditNode_na_bound {mode : EditMode} {center : V3} {r2 : Nat}
    {d : Nat} {pos : V3}
    (h : sphereEditNode mode center r2 d pos = .kNotAffected) :
    sphereMinN2 center (nodeLB d pos) (nodeUB d pos) > (r2 : Int) := by
  unfold sphereEditNode at h
  split_ifs at h <;> first | assumption | simp at h

theorem sphereEditNode_dig_ne_fill (center : V3) (r2 : Nat) (d : Nat) (pos : V3) :
    sphereEditNode EditMode.kDig center r2 d pos ≠ .kFill := by
  unfold sphereEditNode
  split_ifs <;> simp_all

theorem sphereEditNode_paint_ne_clear (center : V3) (r2 : Nat) (d : Nat)
    (pos : V3) : sphereEditNode EditMode.kPaint center r2 d pos ≠ .kClear := by
  unfold sphereEditNode
  split_ifs <;> simp_all

theorem sphereEditNode_dig_clear {center : V3} {r2 : Nat} {d : Nat} {pos : V3}
    (h : sphereMaxN2 center (nodeLB d pos) (nodeUB d pos) ≤ (r2 : Int)) :
    sphereEditNode EditMode.kDig center r2 d pos = .kClear := by
  unfold sphereEditNode
  rw [if_pos h, if_pos rfl]

theorem sq_le_max_endpoints {a b x c : Int} (h1 : a ≤ x) (h2 : x ≤ b) :
    (x - c) ^ 2 ≤ max ((a - c) ^ 2) ((b - c) ^ 2) := by
  rcases le_total x c with h | h
  · refine le_trans ?_ (le_max_left _ _)
    nlinarith
  · refine le_trans ?_ (le_max_right _ _)
    nlinarith

theorem sq_ge_axis (lb ub x c : Int) (h1 : lb ≤ x) (h2 : x ≤ ub) :
    (if lb - c > 0 then (lb - c) ^ 2 else 0) +
      (if ub - c < 0 then (ub - c) ^ 2 else 0) ≤ (x - c) ^ 2 := by
  split_ifs with ha hb hb
  · exfalso; omega
  · nlinarith
  · nlinarith
  · positivity

theorem inRange_of_maxN2 {center : V3} {r2 : Nat} {d : Nat} {pos : V3}
    (hmax : sphereMaxN2 center (nodeLB d pos) (nodeUB d pos) ≤ (r2 : Int))
    (p : V3) (hp : inCube d p) :
    voxelInRange center r2 (glob d pos p) = true := by
  obtain ⟨hx, hy, hz⟩ := hp
  simp only [voxelInRange, decide_eq_true_eq, glob]
  simp only [sphereMaxN2, nodeLB, nodeUB] at hmax
  have e1 := sq_le_max_endpoints (c := (center.x : Int))
    (a := ((pos.x * side d : Nat) : Int)) (b := ((pos.x * side d + side d : Nat) : Int))
    (x := ((pos.x * side d + p.x : Nat) : Int)) (by push_cast; omega) (by push_cast; omega)
  have e2 := sq_le_max_endpoints (c := (center.y : Int))
    (a := ((pos.y * side d : Nat) : Int)) (b := ((pos.y * side d + side d : Nat) : Int))
    (x := ((pos.y * side d + p.y : Nat) : Int)) (by push_cast; omega) (by push_cast; omega)
  have e3 := sq_le_max_endpoints (c := (center.z : Int))
    (a := ((pos.z * side d : Nat) : Int)) (b := ((pos.z * side d + side d : Nat) : Int))
    (x := ((pos.z * side d + p.z : Nat) : Int)) (by push_cast; omega) (by push_cast; omega)
  linarith [e1, e2, e3, hmax]

theorem notInRange_of_minN2 {center : V3} {r2 : Nat} {d : Nat} {pos : V3}
    (hmin : sphereMinN2 center (nodeLB d pos) (nodeUB d pos) > (r2 : Int))
    (p : V3) (hp : inCube d p) :
    voxelInRange center r2 (glob d pos p) = false := by
  obtain ⟨hx, hy, hz⟩ := hp
  simp only [voxelInRange, decide_eq_false_iff_not, glob, not_le]
  simp only [sphereMinN2, nodeLB, nodeUB] at hmin
  have e1 := sq_ge_axis ((pos.x * side d : Nat) : Int)
    ((pos.x * side d + side d : Nat) : Int)
    ((pos.x * side d + p.x : Nat) : Int) (center.x : Int)
    (by push_cast; omega) (by push_cast; omega)
  have e2 := sq_ge_axis ((pos.y * side d : Nat) : Int)
    ((pos.y * side d + side d : Nat) : Int)
    ((pos.y * side d + p.y : Nat) : Int) (center.y : Int)
    (by push_cast; omega) (by push_cast; omega)
  have e3 := sq_ge_axis ((pos.z * side d : Nat) : Int)
    ((pos.z * side d + side d : Nat) : Int)
    ((pos.z * side d + p.z : Nat) : Int) (center.z : Int)
    (by push_cast; omega) (by push_cast; omega)
  linarith [e1, e2, e3, hmin]

theorem digEditor_editVoxel (center : V3) (r2 : Nat) (q : V3) (v : Bool) :
    (digEditor center r2).editVoxel q v = (v && !voxelInRange center r2 q) := by
  show sphereEditVoxel EditMode.kDig center r2 q v = _
  simp [sphereEditVoxel]

theorem dig_soundNA (center : V3) (r2 : Nat) : SoundNA (digEditor center r2) := by
  intro d pos t h p hp b
  rw [digEditor_editVoxel, notInRange_of_minN2 (sphereEditNode_na_bound h) p hp]
  simp

theorem dig_soundCl (center : V3) (r2 : Nat) : SoundCl (digEditor center r2) := by
  intro d pos t h p hp b
  rw [digEditor_editVoxel, inRange_of_maxN2 (sphereEditNode_clear_bound h) p hp]
  simp

theorem dig_soundFi (center : V3) (r2 : Nat) : SoundFi (digEditor center r2) := by
  intro d pos t h p hp b
  exact absurd h (sphereEditNode_dig_ne_fill center r2 d pos)

/-! ## The Paint sphere editor never touches geometry -/

theorem paintGEditor_editVoxel (center : V3) (r2 : Nat) (col : Nat) (q : V3)
    (v : Bool) : (paintGEditor center r2 col).editVoxel q v = v := by
  show (sphereEditVoxelVBR EditMode.kPaint center r2 col q v none).1 = v
  simp [sphereEditVoxelVBR]

theorem paintGEditor_editNode (center : V3) (r2 : Nat) (col : Nat) (d : Nat)
    (pos : V3) (t : NodeTree) :
    (paintGEditor center r2 col).editNode d pos t =
      (sphereEditNodeVBR EditMode.kPaint center r2 col d pos
        (decide (t = .null)) none).1 := rfl

theorem paintVBR_fst (center : V3) (r2 : Nat) (col : Nat) (d : Nat) (pos : V3)
    (isNull : Bool) (cin : Option Nat) :
    (sphereEditNodeVBR EditMode.kPaint center r2 col d pos isNull cin).1 =
        .kNotAffected ∨
      (sphereEditNodeVBR EditMode.kPaint center r2 col d pos isNull cin).1 =
        .kProceed := by
  cases isNull with
  | true =>
    left
    simp only [sphereEditNodeVBR]
    rw [if_pos (by simp)]
  | false =>
    simp only [sphereEditNodeVBR]
    rw [if_neg (by simp)]
    cases he : sphereEditNode EditMode.kPaint center r2 d pos with
    | kNotAffected => left; rw [if_neg (by simp)]
    | kClear => exact absurd he (sphereEditNode_paint_ne_clear center r2 d pos)
    | kFill =>
      left
      rw [if_pos rfl]
      show (if EditMode.kPaint = EditMode.kPaint then EditType.kNotAffected
        else EditType.kFill) = _
      rw [if_pos rfl]
    | kProceed => right; rw [if_neg (by simp)]

theorem paint_null_na (center : V3) (r2 : Nat) (col : Nat) (d : Nat) (pos : V3)
    (cin : Option Nat) :
    (sphereEditNodeVBR EditMode.kPaint center r2 col d pos true cin).1 =
      .kNotAffected := by
  simp only [sphereEditNodeVBR]
  rw [if_pos (by simp)]

theorem paint_fill_to_na (center : V3) (r2 : Nat) (col : Nat) (d : Nat)
    (pos : V3) (isNull : Bool) (cin : Option Nat)
    (h : sphereEditNode EditMode.kPaint center r2 d pos = .kFill) :
    (sphereEditNodeVBR EditMode.kPaint center r2 col d pos isNull cin).1 =
      .kNotAffected := by
  simp only [sphereEditNodeVBR, h]
  split_ifs <;> rfl

theorem paintVBR_ne_clear (center : V3) (r2 : Nat) (col : Nat) (d : Nat)
    (pos : V3) (isNull : Bool) (cin : Option Nat) :
    (sphereEditNodeVBR EditMode.kPaint center r2 col d pos isNull cin).1 ≠
      .kClear := by
  rcases paintVBR_fst center r2 col d pos isNull cin with h | h <;> rw [h] <;> simp

theorem paintVBR_ne_fill (center : V3) (r2 : Nat) (col : Nat) (d : Nat)
    (pos : V3) (isNull : Bool) (cin : Option Nat) :
    (sphereEditNodeVBR EditMode.kPaint center r2 col d pos isNull cin).1 ≠
      .kFill := by
  rcases paintVBR_fst center r2 col d pos isNull cin with h | h <;> rw [h] <;> simp

theorem paint_soundNA (center : V3) (r2 : Nat) (col : Nat) :
    SoundNA (paintGEditor center r2 col) := by
  intro d pos t _ p hp b
  exact paintGEditor_editVoxel center r2 col _ b

theorem paint_soundCl (center : V3) (r2 : Nat) (col : Nat) :
    SoundCl (paintGEditor center r2 col) := by
  intro d pos t h p hp b
  exact absurd h (paintVBR_ne_clear center r2 col d pos (decide (t = .null)) none)

theorem paint_soundFi (center : V3) (r2 : Nat) (col : Nat) :
    SoundFi (paintGEditor center r2 col) := by
  intro d pos t h p hp b
  exact absurd h (paintVBR_ne_fill center r2 col d pos (decide (t = .null)) none)

/-! ## Claim theorems: normalization, decisions, editors -/

/-- Claim C2: normalization invariant.  A leaf whose 64 bits are all 0
normalizes to the `Null` sentinel and one whose 64 bits are all 1 to the
`Filled` sentinel; an inner node with every child `Null` normalizes to `Null`
and with every child `Filled` to `Filled`; consequently the recursive rewrite
preserves canonical form: starting from a canonical (reachable) subtree, no
stored leaf of the result is all-0s or all-1s and no stored inner node of the
result has all children `Null` or all children `Filled`. -/
theorem C2_normalization_invariant :
    (normalizeLeaf (List.replicate 64 false) = NodeTree.null) ∧
    (normalizeLeaf (List.replicate 64 true) = NodeTree.filled) ∧
    (∀ f : Nat → NodeTree, (∀ i, i < 8 → f i = NodeTree.null) →
        normalizeNode f = NodeTree.null) ∧
    (∀ f : Nat → NodeTree, (∀ i, i < 8 → f i = NodeTree.filled) →
        normalizeNode f = NodeTree.filled) ∧
    (∀ (E : GEditor) (d : Nat) (pos : V3) (t : NodeTree),
        CanonB d t = true → CanonB d (editT E d pos t) = true) := by
  refine ⟨by decide, normalizeLeaf_allTrue, ?_, ?_, ?_⟩
  · intro f hf
    unfold normalizeNode
    rw [if_pos ⟨hf 0 (by omega), hf 1 (by omega), hf 2 (by omega),
      hf 3 (by omega), hf 4 (by omega), hf 5 (by omega), hf 6 (by omega),
      hf 7 (by omega)⟩]
  · intro f hf
    unfold normalizeNode
    rw [if_neg (by
        rintro ⟨h0, -, -, -, -, -, -, -⟩
        rw [hf 0 (by omega)] at h0
        exact absurd h0 (by simp)),
      if_pos ⟨hf 0 (by omega), hf 1 (by omega), hf 2 (by omega),
        hf 3 (by omega), hf 4 (by omega), hf 5 (by omega), hf 6 (by omega),
        hf 7 (by omega)⟩]
  · exact fun E d pos t hc => editT_canon E d pos t hc

/-- Claim C2 witness: the closed normalization equations, and canonical-form
preservation applied to a concrete canonical subtree edited by a concrete
editor. -/
theorem C2_normalization_invariant_witness :
    (normalizeNode (fun _ => NodeTree.null) = NodeTree.null) ∧
    (normalizeNode (fun _ => NodeTree.filled) = NodeTree.filled) ∧
    CanonB 1 (editT (digEditor ⟨0, 0, 0⟩ 9) 1 ⟨0, 0, 0⟩ NodeTree.filled) = true :=
  ⟨C2_normalization_invariant.2.2.1 (fun _ => NodeTree.null) (fun _ _ => rfl),
   C2_normalization_invariant.2.2.2.1 (fun _ => NodeTree.filled) (fun _ _ => rfl),
   C2_normalization_invariant.2.2.2.2 (digEditor ⟨0, 0, 0⟩ 9) 1 ⟨0, 0, 0⟩
     NodeTree.filled (by decide)⟩

/-- Claim C3: for every subtree `(level, coord, ptr)` the recursive rewrite
returns the pointer unchanged when the editor's decision is `Unaffected`,
returns the `Null` sentinel when the decision is `Clear`, and returns the
`Filled` sentinel when the decision is `Fill` (at leaf level the all-ones
leaf, which normalizes to `Filled`); in particular `Fill` over an
already-`Filled` subtree yields exactly `Filled` and `Clear` over a `Null`
subtree yields `Null`. -/
theorem C3_edit_decisions (E : GEditor) (d : Nat) (pos : V3) (t : NodeTree) :
    (E.editNode d pos t = .kNotAffected → editT E d pos t = t) ∧
    (E.editNode d pos t = .kClear → editT E d pos t = .null) ∧
    (E.editNode d pos t = .kFill → editT E d pos t = .filled) ∧
    (E.editNode d pos .filled = .kFill → editT E d pos .filled = .filled) ∧
    (E.editNode d pos .null = .kClear → editT E d pos .null = .null) :=
  ⟨fun h => editT_eq_na h, fun h => editT_eq_clear h, fun h => editT_eq_fill h,
   fun h => editT_eq_fill h, fun h => editT_eq_clear h⟩

/-- Claim C3 witness: concrete decisions — a Dig sphere covering the whole
leaf clears it to `Null`, a covering AABB fill yields exactly `Filled` over an
already-`Filled` leaf, and a far-away AABB leaves a `Null` leaf unchanged. -/
theorem C3_edit_decisions_witness :
    (editT (digEditor ⟨0, 0, 0⟩ 1000000) 0 ⟨0, 0, 0⟩ NodeTree.filled =
      NodeTree.null) ∧
    (editT (aabbGEditor ⟨0, 0, 0⟩ ⟨4, 4, 4⟩ 5) 0 ⟨0, 0, 0⟩ NodeTree.filled =
      NodeTree.filled) ∧
    (editT (aabbGEditor ⟨100, 100, 100⟩ ⟨104, 104, 104⟩ 5) 0 ⟨0, 0, 0⟩
      NodeTree.null = NodeTree.null) :=
  ⟨(C3_edit_decisions (digEditor ⟨0, 0, 0⟩ 1000000) 0 ⟨0, 0, 0⟩
      NodeTree.filled).2.1 (by decide),
   (C3_edit_decisions (aabbGEditor ⟨0, 0, 0⟩ ⟨4, 4, 4⟩ 5) 0 ⟨0, 0, 0⟩
      NodeTree.filled).2.2.2.1 (by decide),
   (C3_edit_decisions (aabbGEditor ⟨100, 100, 100⟩ ⟨104, 104, 104⟩ 5) 0
      ⟨0, 0, 0⟩ NodeTree.null).1 (by decide)⟩

/-- Claim C9: a Paint-mode sphere editor never changes geometry — its plain
and color-threaded `EditVoxel` return the input occupancy bit unchanged; its
color-threading `EditNode` never returns `kClear`, converts every would-be
`kFill` decision to `kNotAffected`, and returns `kNotAffected` on a `Null`
subtree; consequently a paint edit preserves the occupancy of every voxel of
every well-formed world. -/
theorem C9_paint_preserves_geometry (center : V3) (r2 : Nat) (col : Nat) :
    (∀ q v, sphereEditVoxel EditMode.kPaint center r2 q v = v) ∧
    (∀ q v cin, (sphereEditVoxelVBR EditMode.kPaint center r2 col q v cin).1 = v) ∧
    (∀ d pos isNull cin,
        (sphereEditNodeVBR EditMode.kPaint center r2 col d pos isNull cin).1 ≠
          .kClear) ∧
    (∀ d pos isNull cin,
        sphereEditNode EditMode.kPaint center r2 d pos = .kFill →
        (sphereEditNodeVBR EditMode.kPaint center r2 col d pos isNull cin).1 =
          .kNotAffected) ∧
    (∀ d pos cin,
        (sphereEditNodeVBR EditMode.kPaint center r2 col d pos true cin).1 =
          .kNotAffected) ∧
    (∀ d pos t, WFB d t = true → ∀ p, inCube d p →
        voxelAt d (editT (paintGEditor center r2 col) d pos t) p =
          voxelAt d t p) := by
  refine ⟨?_, ?_, ?_, ?_, ?_, ?_⟩
  · intro q v
    simp [sphereEditVoxel]
  · intro q v cin
    simp [sphereEditVoxelVBR]
  · exact fun d pos isNull cin => paintVBR_ne_clear center r2 col d pos isNull cin
  · exact fun d pos isNull cin h => paint_fill_to_na center r2 col d pos isNull cin h
  · exact fun d pos cin => paint_null_na center r2 col d pos cin
  · intro d pos t hwf p hp
    rw [editT_sem (paintGEditor center r2 col) (paint_soundNA center r2 col)
      (paint_soundCl center r2 col) (paint_soundFi center r2 col) d pos t hwf p hp]
    exact paintGEditor_editVoxel center r2 col _ _

/-- Claim C9 witness: a concrete paint — `kFill` would be the geometry
decision for a leaf subtree entirely inside the sphere, the color-threading
decision is `kNotAffected`, and painting a concrete filled leaf leaves its
voxel at (1,2,3) occupied. -/
theorem C9_paint_preserves_geometry_witness :
    (sphereEditNode EditMode.kPaint ⟨0, 0, 0⟩ 1000000 0 ⟨0, 0, 0⟩ = .kFill →
      (sphereEditNodeVBR EditMode.kPaint ⟨0, 0, 0⟩ 1000000 7 0 ⟨0, 0, 0⟩ false
        none).1 = .kNotAffected) ∧
    voxelAt 0 (editT (paintGEditor ⟨0, 0, 0⟩ 1000000 7) 0 ⟨0, 0, 0⟩
      NodeTree.filled) ⟨1, 2, 3⟩ = voxelAt 0 NodeTree.filled ⟨1, 2, 3⟩ :=
  ⟨(C9_paint_preserves_geometry ⟨0, 0, 0⟩ 1000000 7).2.2.2.1 0 ⟨0, 0, 0⟩ false
      none,
   (C9_paint_preserves_geometry ⟨0, 0, 0⟩ 1000000 7).2.2.2.2.2 0 ⟨0, 0, 0⟩
      NodeTree.filled (by decide) ⟨1, 2, 3⟩ (by decide)⟩

/-- Claim C10: a Dig-mode sphere editor is monotonically decreasing — its
`EditVoxel` returns `voxel && !VoxelInRange(coord)`, its `EditNode` never
returns `kFill` (a fully covered subtree yields `kClear`), and hence a voxel
occupied after the edit was occupied before it: the post-edit occupied voxel
set is a subset of the pre-edit one. -/
theorem C10_dig_monotone (center : V3) (r2 : Nat) :
    (∀ q v, sphereEditVoxel EditMode.kDig center r2 q v =
        (v && !voxelInRange center r2 q)) ∧
    (∀ d pos, sphereEditNode EditMode.kDig center r2 d pos ≠ .kFill) ∧
    (∀ d pos, sphereMaxN2 center (nodeLB d pos) (nodeUB d pos) ≤ (r2 : Int) →
        sphereEditNode EditMode.kDig center r2 d pos = .kClear) ∧
    (∀ d pos t, WFB d t = true → ∀ p, inCube d p →
        voxelAt d (editT (digEditor center r2) d pos t) p = true →
        voxelAt d t p = true) := by
  refine ⟨?_, ?_, ?_, ?_⟩
  · intro q v
    simp [sphereEditVoxel]
  · exact fun d pos => sphereEditNode_dig_ne_fill center r2 d pos
  · exact fun d pos h => sphereEditNode_dig_clear h
  · intro d pos t hwf p hp hpost
    rw [editT_sem (digEditor center r2) (dig_soundNA center r2)
      (dig_soundCl center r2) (dig_soundFi center r2) d pos t hwf p hp,
      digEditor_editVoxel] at hpost
    exact (Bool.and_eq_true _ _).mp hpost |>.1

/-- Claim C10 witness: a concrete dig of radius² 9 about the origin applied to
a filled leaf — the voxel at (3,3,3) is occupied after the edit (it is outside
the sphere), and by the theorem it was occupied before. -/
theorem C10_dig_monotone_witness :
    (sphereEditVoxel EditMode.kDig ⟨0, 0, 0⟩ 9 ⟨1, 1, 1⟩ true =
      (true && !voxelInRange ⟨0, 0, 0⟩ 9 ⟨1, 1, 1⟩)) ∧
    voxelAt 0 NodeTree.filled ⟨3, 3, 3⟩ = true :=
  ⟨(C10_dig_monotone ⟨0, 0, 0⟩ 9).1 ⟨1, 1, 1⟩ true,
   (C10_dig_monotone ⟨0, 0, 0⟩ 9).2.2.2 0 ⟨0, 0, 0⟩ NodeTree.filled (by decide)
     ⟨3, 3, 3⟩ (by decide) (by decide)⟩

/-- Claim C8: two AABB fill edits over disjoint boxes with the same color
commute — applying A then B to a canonical world yields the same canonical
subtree (hence, by hash-consing uniqueness, the identical root pointer) as
applying B then A. -/
theorem C8_disjoint_fills_commute (mn1 mx1 mn2 mx2 : V3) (col : Nat) (D : Nat)
    (t : NodeTree) (hc : CanonB D t = true)
    (hdisj : ∀ x, x < side D → ∀ y, y < side D → ∀ z, z < side D →
        ¬ (inAABB mn1 mx1 ⟨x, y, z⟩ = true ∧ inAABB mn2 mx2 ⟨x, y, z⟩ = true)) :
    editT (aabbGEditor mn1 mx1 col) D ⟨0, 0, 0⟩
        (editT (aabbGEditor mn2 mx2 col) D ⟨0, 0, 0⟩ t) =
      editT (aabbGEditor mn2 mx2 col) D ⟨0, 0, 0⟩
        (editT (aabbGEditor mn1 mx1 col) D ⟨0, 0, 0⟩ t) := by
  have hc2 := editT_canon (aabbGEditor mn2 mx2 col) D ⟨0, 0, 0⟩ t hc
  have hc1 := editT_canon (aabbGEditor mn1 mx1 col) D ⟨0, 0, 0⟩ t hc
  apply canon_ext D _ _
    (editT_canon (aabbGEditor mn1 mx1 col) D ⟨0, 0, 0⟩ _ hc2)
    (editT_canon (aabbGEditor mn2 mx2 col) D ⟨0, 0, 0⟩ _ hc1)
  intro p hp
  rw [editT_sem (aabbGEditor mn1 mx1 col) (aabb_soundNA mn1 mx1 col)
      (aabb_soundCl mn1 mx1 col) (aabb_soundFi mn1 mx1 col) D ⟨0, 0, 0⟩ _
      (canon_wfb _ _ hc2) p hp,
    editT_sem (aabbGEditor mn2 mx2 col) (aabb_soundNA mn2 mx2 col)
      (aabb_soundCl mn2 mx2 col) (aabb_soundFi mn2 mx2 col) D ⟨0, 0, 0⟩ _
      (canon_wfb _ _ hc1) p hp,
    editT_sem (aabbGEditor mn2 mx2 col) (aabb_soundNA mn2 mx2 col)
      (aabb_soundCl mn2 mx2 col) (aabb_soundFi mn2 mx2 col) D ⟨0, 0, 0⟩ _
      (canon_wfb _ _ hc) p hp,
    editT_sem (aabbGEditor mn1 mx1 col) (aabb_soundNA mn1 mx1 col)
      (aabb_soundCl mn1 mx1 col) (aabb_soundFi mn1 mx1 col) D ⟨0, 0, 0⟩ _
      (canon_wfb _ _ hc) p hp,
    aabbGEditor_editVoxel, aabbGEditor_editVoxel, aabbGEditor_editVoxel,
    aabbGEditor_editVoxel]
  cases voxelAt D t p <;> cases inAABB mn1 mx1 (glob D ⟨0, 0, 0⟩ p) <;>
    cases inAABB mn2 mx2 (glob D ⟨0, 0, 0⟩ p) <;> rfl

/-- Claim C8 witness: two concrete disjoint unit boxes filled in either order
over the empty 8³ world yield the same subtree. -/
theorem C8_disjoint_fills_commute_witness :
    editT (aabbGEditor ⟨0, 0, 0⟩ ⟨1, 1, 1⟩ 5) 1 ⟨0, 0, 0⟩
        (editT (aabbGEditor ⟨4, 4, 4⟩ ⟨5, 5, 5⟩ 5) 1 ⟨0, 0, 0⟩ NodeTree.null) =
      editT (aabbGEditor ⟨4, 4, 4⟩ ⟨5, 5, 5⟩ 5) 1 ⟨0, 0, 0⟩
        (editT (aabbGEditor ⟨0, 0, 0⟩ ⟨1, 1, 1⟩ 5) 1 ⟨0, 0, 0⟩ NodeTree.null) :=
  C8_disjoint_fills_commute ⟨0, 0, 0⟩ ⟨1, 1, 1⟩ ⟨4, 4, 4⟩ ⟨5, 5, 5⟩ 5 1
    NodeTree.null (by decide) (by decide)

/-! ## Lemmas: the fused color edit over a previously-empty world -/

theorem colorAt_cnull (d : Nat) (p : V3) : colorAt d .cnull p = none := by
  cases d <;> rfl

theorem colorAt_csolid (d : Nat) (v : Nat) (p : V3) :
    colorAt d (.csolid v) p = some v := by
  cases d <;> rfl

theorem colorAt_cleaf (d : Nat) (ch : VBRChunkM) (p : V3) :
    colorAt d (.cleaf ch) p = vbrRead ch (mortonIdx (d + 2) p) := by
  cases d <;> rfl

theorem glob_zero (d : Nat) (p : V3) : glob d ⟨0, 0, 0⟩ p = p := by
  cases p with
  | mk x y z => simp [glob]

theorem aabbGEditor_eq (mn mx : V3) (col : Nat) :
    aabbGEditor mn mx col = geomOf (aabbVEditor mn mx col) := rfl

theorem aabb_geom_null_voxel (mn mx : V3) (col : Nat) (d : Nat) (pos : V3)
    (p : V3) (hp : inCube d p) :
    voxelAt d (editT (aabbGEditor mn mx col) d pos .null) p =
      inAABB mn mx (glob d pos p) := by
  rw [editT_sem (aabbGEditor mn mx col) (aabb_soundNA mn mx col)
    (aabb_soundCl mn mx col) (aabb_soundFi mn mx col) d pos .null (wfb_null d)
    p hp, aabbGEditor_editVoxel, voxelAt_null]
  rfl

theorem aabbVEditor_editNodeV_null (mn mx : V3) (col : Nat) (d : Nat)
    (pos : V3) (cin : Option Nat) :
    (aabbVEditor mn mx col).editNodeV d pos .null cin =
      (aabbEditNode mn mx d pos, some col) := by
  show aabbEditNodeVBR mn mx col d pos (decide ((NodeTree.null : NodeTree) = .null)) cin = _
  simp [aabbEditNodeVBR]

theorem colorEdit_na {E : VEditor} {dK d : Nat} {pos : V3} {g : NodeTree}
    {cin c' : Option Nat} (c : ColorTree)
    (h : E.editNodeV d pos g cin = (.kNotAffected, c')) :
    colorEdit E dK d pos g c cin = if g = .null then .cnull else c := by
  cases d <;> simp only [colorEdit, h]

theorem colorEdit_fill {E : VEditor} {dK d : Nat} {pos : V3} {g : NodeTree}
    {cin : Option Nat} {v : Nat} (c : ColorTree)
    (h : E.editNodeV d pos g cin = (.kFill, some v)) :
    colorEdit E dK d pos g c cin = .csolid v := by
  cases d <;> simp only [colorEdit, h]

theorem colorEdit_proceed_zero {E : VEditor} {dK : Nat} {pos : V3}
    {g : NodeTree} {cin c' : Option Nat} (c : ColorTree)
    (h : E.editNodeV 0 pos g cin = (.kProceed, c')) :
    colorEdit E dK 0 pos g c cin =
      if editT (geomOf E) 0 pos g = .null then .cnull
      else colorLeafStep E 0 pos g c := by
  simp only [colorEdit, h]

theorem colorEdit_proceed_succ {E : VEditor} {dK d : Nat} {pos : V3}
    {g : NodeTree} {cin c' : Option Nat} (c : ColorTree)
    (h : E.editNodeV (d + 1) pos g cin = (.kProceed, c')) :
    colorEdit E dK (d + 1) pos g c cin =
      if editT (geomOf E) (d + 1) pos g = .null then .cnull
      else if d + 1 = dK then colorLeafStep E (d + 1) pos g c
      else .cnode
        (colorEdit E dK d (childPos pos 0) (child g 0) (cchild c 0) c')
        (colorEdit E dK d (childPos pos 1) (child g 1) (cchild c 1) c')
        (colorEdit E dK d (childPos pos 2) (child g 2) (cchild c 2) c')
        (colorEdit E dK d (childPos pos 3) (child g 3) (cchild c 3) c')
        (colorEdit E dK d (childPos pos 4) (child g 4) (cchild c 4) c')
        (colorEdit E dK d (childPos pos 5) (child g 5) (cchild c 5) c')
        (colorEdit E dK d (childPos pos 6) (child g 6) (cchild c 6) c')
        (colorEdit E dK d (childPos pos 7) (child g 7) (cchild c 7) c') := by
  simp only [colorEdit, h]

/-! ## Lemmas: Morton indices and the constant-chunk codec roundtrip -/

theorem mortonIdx_lt : ∀ (n : Nat) (p : V3), p.x < 2 ^ n → p.y < 2 ^ n →
    p.z < 2 ^ n → mortonIdx n p < 8 ^ n := by
  intro n
  induction n with
  | zero =>
    intro p _ _ _
    simp [mortonIdx]
  | succ n ih =>
    intro p hx hy hz
    have h2 : (0 : Nat) < 2 ^ n := Nat.pos_pow_of_pos n (by norm_num)
    have e1 : p.x / 2 ^ n ≤ 1 :=
      div_le_one_of_lt_twice h2 (by rw [pow_succ] at hx; omega)
    have e2 : p.y / 2 ^ n ≤ 1 :=
      div_le_one_of_lt_twice h2 (by rw [pow_succ] at hy; omega)
    have e3 : p.z / 2 ^ n ≤ 1 :=
      div_le_one_of_lt_twice h2 (by rw [pow_succ] at hz; omega)
    have hr := ih ⟨p.x % 2 ^ n, p.y % 2 ^ n, p.z % 2 ^ n⟩
      (Nat.mod_lt _ h2) (Nat.mod_lt _ h2) (Nat.mod_lt _ h2)
    have hmul : (p.x / 2 ^ n + 2 * (p.y / 2 ^ n) + 4 * (p.z / 2 ^ n)) * 8 ^ n ≤
        7 * 8 ^ n := Nat.mul_le_mul_right _ (by omega)
    have h8 : (8 : Nat) ^ (n + 1) = 8 * 8 ^ n := by rw [pow_succ]; ring
    simp only [mortonIdx]
    omega

theorem vbrAppend_start (c : Option Nat) :
    vbrAppend ⟨[], [], none, none⟩ c = ⟨[], [], some ⟨c, c, 0, 1⟩, c⟩ := rfl

theorem vbrAppend_extend (c : Option Nat) (bl bi : List VBRBlockHeader × List Bool)
    (m : Nat) :
    vbrAppend ⟨bl.1, bi.2, some ⟨c, c, 0, m⟩, c⟩ c =
      ⟨bl.1, bi.2, some ⟨c, c, 0, m + 1⟩, c⟩ := by
  simp [vbrAppend]

theorem foldl_vbrAppend_const (c : Option Nat) :
    ∀ (k m : Nat),
      List.foldl vbrAppend ⟨[], [], some ⟨c, c, 0, m⟩, c⟩ (List.replicate k c) =
        ⟨[], [], some ⟨c, c, 0, m + k⟩, c⟩ := by
  intro k
  induction k with
  | zero => intro m; simp
  | succ k ih =>
    intro m
    rw [List.replicate_succ, List.foldl_cons,
      show vbrAppend ⟨[], [], some ⟨c, c, 0, m⟩, c⟩ c =
        ⟨[], [], some ⟨c, c, 0, m + 1⟩, c⟩ from by simp [vbrAppend],
      ih (m + 1), show m + 1 + k = m + (k + 1) from by omega]

theorem vbrEncode_replicate (c : Option Nat) (k : Nat) (hk : 1 ≤ k) :
    vbrEncode (List.replicate k c) = ⟨[⟨c, c, 0, k⟩], []⟩ := by
  cases k with
  | zero => omega
  | succ k =>
    unfold vbrEncode
    rw [List.replicate_succ, List.foldl_cons, vbrAppend_start,
      foldl_vbrAppend_const c k 1, show 1 + k = k + 1 from by omega]
    rfl

theorem vbrRead_replicate (c : Option Nat) (k j : Nat) (hj : j < k)
    (hk : 1 ≤ k) : vbrRead (vbrEncode (List.replicate k c)) j = c := by
  rw [vbrEncode_replicate c k hk]
  show vbrReadBlocks [⟨c, c, 0, k⟩] [] j = c
  unfold vbrReadBlocks
  rw [if_pos hj, if_pos rfl]

theorem aabb_leafStep_sem (mn mx : V3) (col : Nat) (d : Nat) (pos : V3)
    (p : V3) (hp : inCube d p) :
    colorAt d (colorLeafStep (aabbVEditor mn mx col) d pos .null .cnull) p =
      some col := by
  have hconst : (fun i : Fin (8 ^ (d + 2)) =>
      ((aabbVEditor mn mx col).editVoxelV (glob d pos (mortonPos (d + 2) i.val))
        (voxelAt d .null (mortonPos (d + 2) i.val))
        (colorAt d .cnull (mortonPos (d + 2) i.val))).2) =
      (fun _ : Fin (8 ^ (d + 2)) => some col) := by
    funext i
    show (aabbEditVoxelVBR mn mx col (glob d pos (mortonPos (d + 2) i.val))
      (voxelAt d .null (mortonPos (d + 2) i.val))
      (colorAt d .cnull (mortonPos (d + 2) i.val))).2 = some col
    rw [voxelAt_null]
    simp [aabbEditVoxelVBR]
  unfold colorLeafStep
  rw [colorAt_cleaf, hconst, List.ofFn_const]
  obtain ⟨hx, hy, hz⟩ := hp
  rw [side_eq_pow] at hx hy hz
  exact vbrRead_replicate (some col) _ _ (mortonIdx_lt (d + 2) p hx hy hz)
    (Nat.one_le_pow _ _ (by norm_num))

theorem c4_color_aux (mn mx : V3) (col : Nat) (dK : Nat) :
    ∀ (d : Nat) (pos : V3) (cin : Option Nat) (p : V3), dK ≤ d → inCube d p →
      inAABB mn mx (glob d pos p) = true →
      colorAt d (colorEdit (aabbVEditor mn mx col) dK d pos .null .cnull cin) p =
        some col := by
  intro d
  induction d with
  | zero =>
    intro pos cin p _ hp hin
    cases he : aabbEditNode mn mx 0 pos with
    | kNotAffected =>
      rw [aabb_na_not_in he p hp] at hin
      exact absurd hin (by simp)
    | kClear => exact absurd he (aabbEditNode_ne_clear mn mx 0 pos)
    | kFill =>
      rw [colorEdit_fill .cnull
        (by rw [aabbVEditor_editNodeV_null, he])]
      exact colorAt_csolid _ _ _
    | kProceed =>
      rw [colorEdit_proceed_zero .cnull
        (by rw [aabbVEditor_editNodeV_null, he])]
      have hval : voxelAt 0 (editT (geomOf (aabbVEditor mn mx col)) 0 pos .null) p
          = true := by
        rw [← aabbGEditor_eq, aabb_geom_null_voxel mn mx col 0 pos p hp, hin]
      rw [if_neg (fun hnull => by rw [hnull, voxelAt_null] at hval; simp at hval)]
      exact aabb_leafStep_sem mn mx col 0 pos p hp
  | succ d ih =>
    intro pos cin p hdK hp hin
    cases he : aabbEditNode mn mx (d + 1) pos with
    | kNotAffected =>
      rw [aabb_na_not_in he p hp] at hin
      exact absurd hin (by simp)
    | kClear => exact absurd he (aabbEditNode_ne_clear mn mx (d + 1) pos)
    | kFill =>
      rw [colorEdit_fill .cnull
        (by rw [aabbVEditor_editNodeV_null, he])]
      exact colorAt_csolid _ _ _
    | kProceed =>
      rw [colorEdit_proceed_succ .cnull
        (by rw [aabbVEditor_editNodeV_null, he])]
      have hval : voxelAt (d + 1)
          (editT (geomOf (aabbVEditor mn mx col)) (d + 1) pos .null) p = true := by
        rw [← aabbGEditor_eq, aabb_geom_null_voxel mn mx col (d + 1) pos p hp, hin]
      rw [if_neg (fun hnull => by rw [hnull, voxelAt_null] at hval; simp at hval)]
      by_cases hdk : d + 1 = dK
      · rw [if_pos hdk]
        exact aabb_leafStep_sem mn mx col (d + 1) pos p hp
      · rw [if_neg hdk]
        have hgc := glob_child d pos p hp
        have ho := octantOf_lt hp
        show colorAt d (cchild (ColorTree.cnode _ _ _ _ _ _ _ _) (octantOf d p))
          (residual d p) = some col
        rcases (by omega : octantOf d p = 0 ∨ octantOf d p = 1 ∨
            octantOf d p = 2 ∨ octantOf d p = 3 ∨ octantOf d p = 4 ∨
            octantOf d p = 5 ∨ octantOf d p = 6 ∨ octantOf d p = 7) with
          h | h | h | h | h | h | h | h <;>
          (rw [h] at hgc ⊢
           exact ih _ (some col) (residual d p) (by omega)
             (residual_inCube hp) (by rw [← hgc]; exact hin))

/-- Claim C4: edit-readback round-trip.  After an AABB fill with color C over
a previously-empty world (Null geometry root, Null color root), every voxel of
the world inside the box reads back as occupied with color C — through the
color octree decode, including the VBR chunk decode of boundary leaves — and
every voxel outside the box reads back as unoccupied. -/
theorem C4_aabb_fill_readback (mn mx : V3) (col : Nat) (D dK : Nat)
    (hK : dK ≤ D) (q : V3) (hq : inCube D q) :
    (inAABB mn mx q = true →
        voxelAt D (editT (aabbGEditor mn mx col) D ⟨0, 0, 0⟩ .null) q = true ∧
        colorAt D (colorEdit (aabbVEditor mn mx col) dK D ⟨0, 0, 0⟩ .null .cnull
          none) q = some col) ∧
    (inAABB mn mx q = false →
        voxelAt D (editT (aabbGEditor mn mx col) D ⟨0, 0, 0⟩ .null) q = false) := by
  constructor
  · intro hin
    constructor
    · rw [aabb_geom_null_voxel mn mx col D ⟨0, 0, 0⟩ q hq, glob_zero, hin]
    · exact c4_color_aux mn mx col dK D ⟨0, 0, 0⟩ none q hK hq
        (by rw [glob_zero]; exact hin)
  · intro hout
    rw [aabb_geom_null_voxel mn mx col D ⟨0, 0, 0⟩ q hq, glob_zero, hout]

/-- Claim C4 witness: a concrete fill of the box [(0,0,0),(8,8,8)) with color
1 over the empty 8³ world, read back at the in-box voxel (0,0,0) with color
leaf level one below the root. -/
theorem C4_aabb_fill_readback_witness :
    (inAABB ⟨0, 0, 0⟩ ⟨8, 8, 8⟩ ⟨0, 0, 0⟩ = true →
        voxelAt 1 (editT (aabbGEditor ⟨0, 0, 0⟩ ⟨8, 8, 8⟩ 1) 1 ⟨0, 0, 0⟩ .null)
          ⟨0, 0, 0⟩ = true ∧
        colorAt 1 (colorEdit (aabbVEditor ⟨0, 0, 0⟩ ⟨8, 8, 8⟩ 1) 0 1 ⟨0, 0, 0⟩
          .null .cnull none) ⟨0, 0, 0⟩ = some 1) ∧
    (inAABB ⟨0, 0, 0⟩ ⟨8, 8, 8⟩ ⟨0, 0, 0⟩ = false →
        voxelAt 1 (editT (aabbGEditor ⟨0, 0, 0⟩ ⟨8, 8, 8⟩ 1) 1 ⟨0, 0, 0⟩ .null)
          ⟨0, 0, 0⟩ = false) :=
  C4_aabb_fill_readback ⟨0, 0, 0⟩ ⟨8, 8, 8⟩ 1 1 0 (by decide) ⟨0, 0, 0⟩
    (by decide)

end VkHashDAG
